import Mathlib

/-!
Verification model of the split-ordered hash table and its growable trie
(`src/homework/src/hash_table/{split_ordered_list.rs, growable_array.rs}`).

Machine words (`usize`) are modelled as `Nat`, with `% 2 ^ 64` at the points
where the source's arithmetic can wrap.  The source's single-threaded
(sequential) executions are modelled; all retry loops of the source are
resolved the way they resolve without interference from other threads.
-/

/-! ### Bit reversal

`usize::reverse_bits` on a 64-bit word.  `revBits w k` reverses the lowest
`w` bits of `k` (higher bits of `k` are discarded, as in the hardware
instruction for a `w`-bit register). -/

def revBits : Nat → Nat → Nat
  | 0, _ => 0
  | w + 1, k => k % 2 * 2 ^ w + revBits w (k / 2)

def rev64 (k : Nat) : Nat := revBits 64 k

/-- `SplitOrderedList::HI_MASK`, the most-significant bit of a 64-bit word. -/
def HI_MASK : Nat := 0x8000000000000000

/-- `SplitOrderedList::make_content_key`: the list-key of a data entry,
`(key | HI_MASK).reverse_bits()`. -/
def make_content_key (key : Nat) : Nat := rev64 (key ||| HI_MASK)

theorem hi_mask_eq : HI_MASK = 2 ^ 63 := by decide

theorem revBits_eq_sum (w k : Nat) :
    revBits w k = ∑ i ∈ Finset.range w, if k.testBit i then 2 ^ (w - 1 - i) else 0 := by
  induction w generalizing k with
  | zero => simp [revBits]
  | succ w ih =>
    rw [revBits, Finset.sum_range_succ']
    have h0 : (if k.testBit 0 then 2 ^ (w + 1 - 1 - 0) else 0) = k % 2 * 2 ^ w := by
      rcases Nat.even_or_odd k with he | ho
      · have : k % 2 = 0 := Nat.even_iff.mp he
        simp [Nat.testBit_zero, this, Nat.mod_two_ne_one.mpr this]
      · have : k % 2 = 1 := Nat.odd_iff.mp ho
        simp [Nat.testBit_zero, this]
    rw [h0, ih (k / 2), Nat.add_comm]
    congr 1
    refine Finset.sum_congr rfl fun i _ => ?_
    have ht : (k / 2).testBit i = k.testBit (i + 1) := by
      rw [Nat.testBit_add_one]
    have he : w - 1 - i = w + 1 - 1 - (i + 1) := by omega
    rw [ht, he]

theorem revBits_lt (w k : Nat) : revBits w k < 2 ^ w := by
  induction w generalizing k with
  | zero => simp [revBits]
  | succ w ih =>
    have h1 : k % 2 ≤ 1 := Nat.le_of_lt_succ (Nat.mod_lt _ (by norm_num))
    have := ih (k / 2)
    calc revBits (w + 1) k = k % 2 * 2 ^ w + revBits w (k / 2) := rfl
      _ ≤ 1 * 2 ^ w + revBits w (k / 2) := by
          exact Nat.add_le_add_right (Nat.mul_le_mul_right _ h1) _
      _ < 1 * 2 ^ w + 2 ^ w := by omega
      _ = 2 ^ (w + 1) := by ring

theorem rev64_lt (k : Nat) : rev64 k < 2 ^ 64 := revBits_lt 64 k

/-- The low bit of a 64-bit reversal is the word's bit 63. -/
theorem rev64_mod_two (k : Nat) : rev64 k % 2 = if k.testBit 63 then 1 else 0 := by
  have hsplit : rev64 k =
      (∑ i ∈ Finset.range 63, if k.testBit i then 2 ^ (64 - 1 - i) else 0) +
        (if k.testBit 63 then 1 else 0) := by
    rw [rev64, revBits_eq_sum, Finset.sum_range_succ]
    norm_num
  have heven : 2 ∣ ∑ i ∈ Finset.range 63, if k.testBit i then 2 ^ (64 - 1 - i) else 0 := by
    refine Finset.dvd_sum fun i hi => ?_
    have : i < 63 := Finset.mem_range.mp hi
    split
    · exact dvd_pow_self 2 (by omega)
    · exact dvd_zero 2
  obtain ⟨c, hc⟩ := heven
  rw [hsplit, hc, Nat.mul_add_mod]
  rcases k.testBit 63 with _ | _
  · rfl
  · rfl

/-- Chopping a word below one of its set bits strictly decreases the reversal:
if bit `m` of `x` is set, `j ≤ m ≤ 63`, then `rev64 (x % 2 ^ j) < rev64 x`. -/
theorem rev64_mod_lt (x j m : Nat) (hjm : j ≤ m) (hm : m ≤ 63)
    (hbit : x.testBit m = true) : rev64 (x % 2 ^ j) < rev64 x := by
  rw [rev64, rev64, revBits_eq_sum, revBits_eq_sum]
  refine Finset.sum_lt_sum (fun i _ => ?_) ⟨m, Finset.mem_range.mpr (by omega), ?_⟩
  · rcases hti : (x % 2 ^ j).testBit i with _ | _
    · simp
    · have : x.testBit i = true := by
        rw [Nat.testBit_mod_two_pow] at hti
        exact (Bool.and_eq_true_iff.mp hti).2
      rw [this]
  · have h1 : (x % 2 ^ j).testBit m = false := by
      rw [Nat.testBit_mod_two_pow]
      have : ¬ m < j := by omega
      simp [this]
    rw [h1, hbit]
    have h2 : 0 < 2 ^ (64 - 1 - m) := Nat.pos_pow_of_pos _ (by norm_num)
    exact h2

theorem testBit_hi_or (k i : Nat) :
    (k ||| HI_MASK).testBit i = (k.testBit i || decide (63 = i)) := by
  rw [hi_mask_eq, Nat.testBit_lor, Nat.testBit_two_pow]

/-- In any word ORed with `HI_MASK`, bit 63 is set. -/
theorem testBit_hi_or_63 (k : Nat) : (k ||| HI_MASK).testBit 63 = true := by
  rw [testBit_hi_or]
  simp

/-- Low `j` bits of `k ||| HI_MASK` agree with those of `k`, for `j ≤ 63`. -/
theorem hi_or_mod (k j : Nat) (hj : j ≤ 63) :
    (k ||| HI_MASK) % 2 ^ j = k % 2 ^ j := by
  refine Nat.eq_of_testBit_eq fun i => ?_
  rw [Nat.testBit_mod_two_pow, Nat.testBit_mod_two_pow, testBit_hi_or]
  rcases Nat.lt_or_ge i j with h | h
  · have : (63 = i) = False := by simp; omega
    simp [this]
  · have : ¬ i < j := by omega
    simp [this]

/-- The sentinel list-key of a key's bucket is strictly below the key's data
list-key, for any power-of-two bucket count `2 ^ j`. -/
theorem sentinel_lt_content (k j : Nat) (hk : k < 2 ^ 63) :
    rev64 (k % 2 ^ j) < make_content_key k := by
  unfold make_content_key
  rcases Nat.lt_or_ge j 64 with hj | hj
  · rw [← hi_or_mod k j (by omega)]
    exact rev64_mod_lt _ j 63 (by omega) (by omega) (testBit_hi_or_63 k)
  · have hkj : k < 2 ^ j := lt_of_lt_of_le hk (Nat.pow_le_pow_right (by norm_num) (by omega))
    have h1 : k % 2 ^ j = k % 2 ^ 63 := by
      rw [Nat.mod_eq_of_lt hkj, Nat.mod_eq_of_lt hk]
    rw [h1, ← hi_or_mod k 63 (by omega)]
    exact rev64_mod_lt _ 63 63 (by omega) (by omega) (testBit_hi_or_63 k)

/-- C1: for a user key `k` with its most-significant bit clear and a
power-of-two size `s` with `k % s < 2 ^ 63`, the data list-key
`make_content_key k` is odd, the sentinel list-key `rev64 (k % s)` of `k`'s
bucket is even, and the data list-key is strictly greater than the sentinel
list-key. -/
theorem make_content_key_above_sentinel (k s : Nat) (hk : k < 2 ^ 63)
    (hs : ∃ j, s = 2 ^ j) (hb : k % s < 2 ^ 63) :
    make_content_key k % 2 = 1 ∧ rev64 (k % s) % 2 = 0 ∧
      rev64 (k % s) < make_content_key k := by
  obtain ⟨j, rfl⟩ := hs
  refine ⟨?_, ?_, sentinel_lt_content k j hk⟩
  · unfold make_content_key
    rw [rev64_mod_two, testBit_hi_or_63]
    simp
  · rw [rev64_mod_two, Nat.testBit_lt_two_pow hb]
    simp

/-- Witness for C1 at `k = 5`, `s = 2`. -/
theorem make_content_key_above_sentinel_witness :
    make_content_key 5 % 2 = 1 ∧ rev64 (5 % 2) % 2 = 0 ∧
      rev64 (5 % 2) < make_content_key 5 :=
  make_content_key_above_sentinel 5 2 (by norm_num) ⟨1, rfl⟩ (by norm_num)

/-! ### Growable array (`GrowableArray<T>`)

A segment is modelled with an allocation identity (`id`, issued by a counter
threaded through the state) plus its child slots; two calls to `get` return
the same slot exactly when they return the same `(segment id, slot index)`
pair.  The root tag (the trie height) is modelled as an unbounded `Nat`;
every height reachable while an index is addressable is at most 7, so no tag
arithmetic wraps in the modelled executions. -/

inductive Seg : Type where
  | node (id : Nat) (children : Nat → Option Seg) : Seg

def Seg.id : Seg → Nat
  | .node i _ => i

def Seg.children : Seg → Nat → Option Seg
  | .node _ ch => ch

def SEGMENT_LOGSIZE : Nat := 10

/-- `1 << SEGMENT_LOGSIZE`, the segment fanout. -/
def SEG_FANOUT : Nat := 2 ^ SEGMENT_LOGSIZE

structure GA where
  height : Nat
  root : Option Seg
  fresh : Nat

/-- `GrowableArray::new`: null root (tag 0). -/
def GA.new : GA := ⟨0, none, 0⟩

/-- The bound tested by `get`'s growth loop:
`usize::MAX >> (USIZE_SIZE - min(USIZE_SIZE, SEGMENT_LOGSIZE * root_height))`
when `root_height > 0`, else `0`. -/
def maxKey (h : Nat) : Nat :=
  if 0 < h then 2 ^ (min 64 (SEGMENT_LOGSIZE * h)) - 1 else 0

/-- One height-raising step: a new segment whose slot 0 is the old root. -/
def growOnce (g : GA) : GA :=
  { height := g.height + 1
    root := some (.node g.fresh fun d => if d = 0 then g.root else none)
    fresh := g.fresh + 1 }

/-- The `Ensure tree height` loop of `get`, with explicit fuel; `none` means
the loop did not exit within `fuel` iterations. -/
def ensureHeight : Nat → GA → Nat → Option GA
  | 0, _, _ => none
  | fuel + 1, g, index =>
    if index < maxKey g.height then some g else ensureHeight fuel (growOnce g) index

def updFun (f : Nat → Option Seg) (d : Nat) (c : Seg) : Nat → Option Seg :=
  fun x => if x = d then some c else f x

/-- The `SEGMENT_LOGSIZE`-bit digit of `index` used at `current_height = h`:
`(index >> ((h - 1) * SEGMENT_LOGSIZE)) & ((1 << SEGMENT_LOGSIZE) - 1)`. -/
def digit (index h : Nat) : Nat :=
  index / 2 ^ (SEGMENT_LOGSIZE * (h - 1)) % SEG_FANOUT

/-- The `Find node` descent loop of `get`: walks from `s` at `current_height
= h` down to height 1, allocating (with ids from `fresh`) any missing
segment, and returns the new fresh counter, the updated subtree, and the slot
`(leaf segment id, low digit)` the source returns a reference to.  The
height-0 case is never reached: the descent starts at the root height, which
is positive whenever the growth loop has exited. -/
def descendAux : Nat → Seg → Nat → Nat → Nat × Seg × (Nat × Nat)
  | fresh, s, 0, index => (fresh, s, (s.id, digit index 0))
  | fresh, s, 1, index => (fresh, s, (s.id, digit index 1))
  | fresh, .node i ch, h + 2, index =>
    let d := digit index (h + 2)
    match ch d with
    | some c =>
      let r := descendAux fresh c (h + 1) index
      (r.1, .node i (updFun ch d r.2.1), r.2.2)
    | none =>
      let c : Seg := .node fresh fun _ => none
      let r := descendAux (fresh + 1) c (h + 1) index
      (r.1, .node i (updFun ch d r.2.1), r.2.2)

/-- `GrowableArray::get` (single-threaded), with fuel for the growth loop.
A `none` root after a successful height check can only come from an
ill-formed state (positive tag on a null pointer); the source would
dereference null there. -/
def getGAF (fuel : Nat) (g : GA) (index : Nat) : Option (GA × Nat × Nat) :=
  (ensureHeight fuel g index).bind fun g1 =>
    match g1.root with
    | none => none
    | some r =>
      let rr := descendAux g1.fresh r g1.height index
      some ({ height := g1.height, root := some rr.2.1, fresh := rr.1 }, rr.2.2)

/-- `GrowableArray::get` with enough fuel for every terminating execution:
at most 7 successful height raises are ever needed, see
`ensureHeight_total`. -/
def getGA (g : GA) (index : Nat) : Option (GA × Nat × Nat) := getGAF 8 g index

/-- Pure read: the slot `index` resolves to in the current tree, without
allocating. -/
def resolveAddr : Seg → Nat → Nat → Option (Nat × Nat)
  | s, 0, index => some (s.id, digit index 0)
  | s, 1, index => some (s.id, digit index 1)
  | .node _ ch, h + 2, index =>
    match ch (digit index (h + 2)) with
    | none => none
    | some c => resolveAddr c (h + 1) index

def addrOf (g : GA) (index : Nat) : Option (Nat × Nat) :=
  match g.root with
  | none => none
  | some r => if 0 < g.height then resolveAddr r g.height index else none

/-- A sequence of `get` calls, propagating the state. -/
def runGets (g : GA) (is : List Nat) : Option GA :=
  is.foldlM (fun s j => (getGA s j).map Prod.fst) g

/-- Segment ids freed by `Drop for GrowableArray` from a segment at `height`:
a segment at height 1 is freed without visiting its slots (leaf payloads are
not freed); an internal segment is freed after visiting child slots
`0..max_key` only, `max_key = (1 << SEGMENT_LOGSIZE) - 1` — slot 1023 is
skipped.  The source uses an explicit stack; only the set of freed segments
matters here, so children are collected in slot order.  Height 0 on a
non-null segment is unreachable (a published root's tag is positive). -/
def dropSegs : Seg → Nat → List Nat
  | s, 0 => [s.id]
  | s, 1 => [s.id]
  | .node i ch, h + 2 =>
    i :: (List.range (SEG_FANOUT - 1)).foldr
      (fun d acc => (match ch d with | some c => dropSegs c (h + 1) | none => []) ++ acc) []

/-- All segment ids reachable from a segment at `height` (full fanout). -/
def allIds : Seg → Nat → List Nat
  | s, 0 => [s.id]
  | s, 1 => [s.id]
  | .node i ch, h + 2 =>
    i :: (List.range SEG_FANOUT).foldr
      (fun d acc => (match ch d with | some c => allIds c (h + 1) | none => []) ++ acc) []

def allIdsGA (g : GA) : List Nat :=
  match g.root with
  | none => []
  | some r => allIds r g.height

/-- `Drop for GrowableArray` at the state level.  The source unconditionally
takes ownership of the root (`into_owned`) and then indexes `node.inner[x]`
through it; on a null root this dereferences a null pointer, modelled as
`Except.error ()`. -/
def dropGA (g : GA) : Except Unit (List Nat) :=
  match g.root with
  | none => .error ()
  | some r => .ok (dropSegs r g.height)

theorem maxKey_le (h : Nat) : maxKey h ≤ 2 ^ 64 - 1 := by
  unfold maxKey
  split
  · have h1 : min 64 (SEGMENT_LOGSIZE * h) ≤ 64 := Nat.min_le_left _ _
    have h2 : 2 ^ min 64 (SEGMENT_LOGSIZE * h) ≤ 2 ^ 64 :=
      Nat.pow_le_pow_right (by norm_num) h1
    omega
  · positivity

theorem ensureHeight_usize_max (fuel : Nat) :
    ∀ g, ensureHeight fuel g (2 ^ 64 - 1) = none := by
  induction fuel with
  | zero => intro g; rfl
  | succ n ih =>
    intro g
    rw [ensureHeight]
    have := maxKey_le g.height
    rw [if_neg (by omega)]
    exact ih _

/-- C9 (the code diverges at the failing input): at `index = usize::MAX` the
growth loop of `get` never exits — `max_key` is clamped to `2 ^ 64 - 1`, so
`index < max_key` never holds — hence `get` does not terminate there, for any
number of loop iterations. -/
theorem getGA_usize_max_diverges (fuel : Nat) (g : GA) :
    getGAF fuel g (2 ^ 64 - 1) = none := by
  unfold getGAF
  rw [ensureHeight_usize_max]
  rfl

/-- C10: dropping a `GrowableArray` whose root is still null (as produced by
`GrowableArray::new`) takes ownership of and indexes through the null root:
the drop model reports the null dereference instead of freeing nothing. -/
theorem dropGA_new_null_deref : dropGA GA.new = .error () := rfl

theorem ensureHeight_mono (fuel : Nat) :
    ∀ g g' i, ensureHeight fuel g i = some g' → g.height ≤ g'.height := by
  induction fuel with
  | zero => intro g g' i h; exact absurd h (by simp [ensureHeight])
  | succ n ih =>
    intro g g' i h
    rw [ensureHeight] at h
    split at h
    · cases h; exact le_refl _
    · have := ih (growOnce g) g' i h
      simp [growOnce] at this
      omega

/-- C5 (amended): `get` leaves the height unchanged exactly when
`index < max_key` (i.e. `index < 2 ^ min(64, L·H) − 1`); whenever
`max_key ≤ index` — including `index` equal to the largest addressable
value `2 ^ (L·H) − 1` — it raises the height before descending. -/
theorem getGA_height_raise (g : GA) (index : Nat) :
    (index < maxKey g.height →
      ∀ g' a, getGA g index = some (g', a) → g'.height = g.height) ∧
    (maxKey g.height ≤ index →
      ∀ g' a, getGA g index = some (g', a) → g.height < g'.height) := by
  constructor
  · intro hlt g' a hg
    unfold getGA getGAF at hg
    rw [show ensureHeight 8 g index = some g by rw [ensureHeight, if_pos hlt]] at hg
    simp only [Option.some_bind] at hg
    split at hg
    · exact absurd hg (by simp)
    · simp only [Option.some_inj, Prod.mk.injEq] at hg
      rw [← hg.1]
  · intro hge g' a hg
    unfold getGA getGAF at hg
    rw [show ensureHeight 8 g index = ensureHeight 7 (growOnce g) index by
      rw [ensureHeight, if_neg (by omega)]] at hg
    rcases he : ensureHeight 7 (growOnce g) index with _ | g1
    · rw [he] at hg; exact absurd hg (by simp)
    · rw [he] at hg
      have hmono := ensureHeight_mono 7 (growOnce g) g1 index he
      simp only [growOnce] at hmono
      simp only [Option.some_bind] at hg
      split at hg
      · exact absurd hg (by simp)
      · simp only [Option.some_inj, Prod.mk.injEq] at hg
        have hh : g'.height = g1.height := by rw [← hg.1]
        omega

/-- A trie of height 1 whose root segment (id 0) is empty. -/
def gaEx1 : GA := ⟨1, some (.node 0 fun _ => none), 1⟩

/-- Result state of `getGA GA.new 5`. -/
def gaW2 : GA := ⟨1, some (.node 0 fun d => if d = 0 then none else none), 1⟩

/-- C5 counterexample: at height 1, index `1023 = 2 ^ (L·1) − 1` is the
largest addressable value — the claim says `get` descends without raising the
height — yet `get` raises the height to 2. -/
theorem getGA_at_max_addressable_raises :
    1023 = 2 ^ (SEGMENT_LOGSIZE * gaEx1.height) - 1 ∧
    (getGA gaEx1 1023).map (fun p => p.1.height) = some 2 :=
  ⟨rfl, rfl⟩

/-- Witness for C5 (amended), at height 1 / index 5 (no raise) and height 0 /
index 5 (raise). -/
theorem getGA_height_raise_witness :
    gaEx1.height = gaEx1.height ∧ GA.new.height < gaW2.height :=
  ⟨(getGA_height_raise gaEx1 5).1 (by decide) gaEx1 (0, 5) rfl,
   (getGA_height_raise GA.new 5).2 (by decide) gaW2 (0, 5) rfl⟩

theorem range_foldr_chop (f : Nat → List Nat) (n m : Nat) (hm : m ≤ n)
    (h : ∀ d, m ≤ d → d < n → f d = []) (init : List Nat) :
    (List.range n).foldr (fun d acc => f d ++ acc) init
      = (List.range m).foldr (fun d acc => f d ++ acc) init := by
  induction n with
  | zero =>
    have h0 : m = 0 := by omega
    subst h0
    rfl
  | succ n ih =>
    rcases Nat.lt_or_ge m (n + 1) with h1 | h1
    · have hmn : m ≤ n := by omega
      rw [List.range_succ, List.foldr_append]
      simp only [List.foldr_cons, List.foldr_nil]
      rw [h n hmn (by omega), List.nil_append]
      exact ih hmn fun d hd1 hd2 => h d hd1 (by omega)
    · have h2 : m = n + 1 := by omega
      subst h2
      rfl

/-- The level-2 child table of the trie after `get(0b1111111111_0000000000)`
on a fresh array: slot 0 holds the old root (segment 0), the rest are null. -/
def chEx : Nat → Option Seg :=
  fun d => if d = 0 then some (.node 0 fun e => if e = 0 then none else none) else none

/-- The state after `get(1047552)` on a fresh array: height 2, root segment 1
with the old root (segment 0) at slot 0 and the new leaf segment 2 at slot
1023. -/
def gaBug : GA := ⟨2, some (.node 1 (updFun chEx 1023 (.node 2 fun _ => none))), 3⟩

theorem getGA_new_1047552 : getGA GA.new 1047552 = some (gaBug, (2, 0)) := rfl

theorem dropSegs_internal (i : Nat) (ch : Nat → Option Seg) (h : Nat) :
    dropSegs (.node i ch) (h + 2) =
      i :: (List.range (SEG_FANOUT - 1)).foldr
        (fun d acc =>
          (match ch d with | some c => dropSegs c (h + 1) | none => []) ++ acc) [] := rfl

theorem allIds_internal (i : Nat) (ch : Nat → Option Seg) (h : Nat) :
    allIds (.node i ch) (h + 2) =
      i :: (List.range SEG_FANOUT).foldr
        (fun d acc =>
          (match ch d with | some c => allIds c (h + 1) | none => []) ++ acc) [] := rfl

theorem dropGA_gaBug : dropGA gaBug = .ok [1, 0] := by
  show Except.ok (dropSegs (.node 1 (updFun chEx 1023 (.node 2 fun _ => none))) 2) = _
  rw [show (2 : Nat) = 0 + 2 from rfl, dropSegs_internal]
  rw [range_foldr_chop _ _ 1 (by norm_num [SEG_FANOUT, SEGMENT_LOGSIZE]) ?_ []]
  · rfl
  · intro d hd1 hd2
    have hne0 : d ≠ 0 := by omega
    have hne : d ≠ 1023 := by
      simp only [SEG_FANOUT, SEGMENT_LOGSIZE] at hd2
      omega
    simp [updFun, chEx, hne, hne0]

theorem allIdsGA_gaBug : allIdsGA gaBug = [1, 0, 2] := by
  show allIds (.node 1 (updFun chEx 1023 (.node 2 fun _ => none))) 2 = _
  rw [show (2 : Nat) = 0 + 2 from rfl, allIds_internal]
  rw [show SEG_FANOUT = 1023 + 1 by norm_num [SEG_FANOUT, SEGMENT_LOGSIZE]]
  rw [List.range_succ, List.foldr_append]
  simp only [List.foldr_cons, List.foldr_nil]
  rw [show (match updFun chEx 1023 (.node 2 fun _ => none) 1023 with
        | some c => allIds c (0 + 1) | none => ([] : List Nat)) ++ ([] : List Nat)
      = [2] by simp only [updFun, if_pos rfl, List.append_nil]; rfl]
  rw [range_foldr_chop _ _ 1 (by omega) ?_ [2]]
  · rfl
  · intro d hd1 hd2
    have hne0 : d ≠ 0 := by omega
    have hne : d ≠ 1023 := by omega
    simp [updFun, chEx, hne, hne0]

/-- C8 (the drop loss at a concrete input): after `get(1047552)` on a fresh
array, segment 2 hangs off child slot 1023 of the root and is reachable, but
the drop traversal — which visits child slots `0..1023` exclusive — frees
only segments 1 and 0, leaking segment 2. -/
theorem dropGA_skips_last_slot :
    getGA GA.new 1047552 = some (gaBug, (2, 0)) ∧
    dropGA gaBug = .ok [1, 0] ∧ allIdsGA gaBug = [1, 0, 2] ∧ (2 : Nat) ∉ [1, 0] :=
  ⟨getGA_new_1047552, dropGA_gaBug, allIdsGA_gaBug, by decide⟩

/-- Height-bounded refinement of segment trees: ids agree and every non-null
child of the left tree is non-null on the right (slots only ever go
null → non-null, and published segments are never replaced). -/
def segLE : Nat → Seg → Seg → Prop
  | 0, s, t => s.id = t.id
  | h + 1, s, t => s.id = t.id ∧
      ∀ d c, s.children d = some c → ∃ c', t.children d = some c' ∧ segLE h c c'

theorem segLE_refl (h : Nat) : ∀ s, segLE h s s := by
  induction h with
  | zero => intro s; rfl
  | succ h ih => exact fun s => ⟨rfl, fun d c hc => ⟨c, hc, ih c⟩⟩

theorem descend_le : ∀ (h fresh : Nat) (s : Seg) (index : Nat),
    segLE h s (descendAux fresh s h index).2.1
  | 0, fresh, .node i ch, index => segLE_refl 0 _
  | 1, fresh, .node i ch, index => segLE_refl 1 _
  | h + 2, fresh, .node i ch, index => by
    rcases hcd : ch (digit index (h + 2)) with _ | c
    · simp only [descendAux, hcd]
      refine ⟨rfl, fun e c0 hc0 => ?_⟩
      simp only [Seg.children] at hc0 ⊢
      by_cases he : e = digit index (h + 2)
      · rw [he, hcd] at hc0; cases hc0
      · exact ⟨c0, by simp [updFun, he, hc0], segLE_refl _ c0⟩
    · simp only [descendAux, hcd]
      refine ⟨rfl, fun e c0 hc0 => ?_⟩
      simp only [Seg.children] at hc0 ⊢
      by_cases he : e = digit index (h + 2)
      · subst he
        rw [hcd] at hc0
        cases hc0
        exact ⟨_, by simp [updFun], descend_le (h + 1) fresh c index⟩
      · exact ⟨c0, by simp [updFun, he, hc0], segLE_refl _ c0⟩

theorem resolve_mono : ∀ (h : Nat) (s t : Seg) (index : Nat) (a : Nat × Nat),
    segLE h s t → resolveAddr s h index = some a → resolveAddr t h index = some a
  | 0, .node i ch, .node i2 ch2, index, a, hle, hr => by
    simp only [resolveAddr, Seg.id] at hr ⊢
    simp only [segLE, Seg.id] at hle
    rw [← hr, hle]
  | 1, .node i ch, .node i2 ch2, index, a, hle, hr => by
    simp only [resolveAddr, Seg.id] at hr ⊢
    have := hle.1
    simp only [Seg.id] at this
    rw [← hr, this]
  | h + 2, .node i ch, .node i2 ch2, index, a, hle, hr => by
    simp only [resolveAddr] at hr ⊢
    rcases hcd : ch (digit index (h + 2)) with _ | c
    · rw [hcd] at hr; cases hr
    · rw [hcd] at hr
      obtain ⟨c2, hc2, hle2⟩ := hle.2 (digit index (h + 2)) c (by simpa [Seg.children] using hcd)
      simp only [Seg.children] at hc2
      rw [hc2]
      exact resolve_mono (h + 1) c c2 index a hle2 hr

theorem descend_resolves : ∀ (h fresh : Nat) (s : Seg) (index : Nat),
    resolveAddr (descendAux fresh s h index).2.1 h index
      = some (descendAux fresh s h index).2.2
  | 0, fresh, .node i ch, index => rfl
  | 1, fresh, .node i ch, index => rfl
  | h + 2, fresh, .node i ch, index => by
    rcases hcd : ch (digit index (h + 2)) with _ | c
    · simp only [descendAux, hcd, resolveAddr, Seg.children]
      rw [show updFun ch (digit index (h + 2))
            (descendAux (fresh + 1) (.node fresh fun _ => none) (h + 1) index).2.1
            (digit index (h + 2))
          = some (descendAux (fresh + 1) (.node fresh fun _ => none) (h + 1) index).2.1
        by simp [updFun]]
      exact descend_resolves (h + 1) (fresh + 1) (.node fresh fun _ => none) index
    · simp only [descendAux, hcd, resolveAddr, Seg.children]
      rw [show updFun ch (digit index (h + 2)) (descendAux fresh c (h + 1) index).2.1
            (digit index (h + 2))
          = some (descendAux fresh c (h + 1) index).2.1 by simp [updFun]]
      exact descend_resolves (h + 1) fresh c index

theorem descend_follows : ∀ (h fresh : Nat) (s : Seg) (index : Nat) (a : Nat × Nat),
    resolveAddr s h index = some a → (descendAux fresh s h index).2.2 = a
  | 0, fresh, .node i ch, index, a, hr => by
    simp only [resolveAddr] at hr
    simpa [descendAux] using hr
  | 1, fresh, .node i ch, index, a, hr => by
    simp only [resolveAddr] at hr
    simpa [descendAux] using hr
  | h + 2, fresh, .node i ch, index, a, hr => by
    simp only [resolveAddr] at hr
    rcases hcd : ch (digit index (h + 2)) with _ | c
    · simp only [Seg.children, hcd] at hr; cases hr
    · simp only [Seg.children, hcd] at hr
      simp only [descendAux, hcd]
      exact descend_follows (h + 1) fresh c index a hr

theorem addrOf_some (g : GA) (i : Nat) (r : Seg) (hroot : g.root = some r) :
    addrOf g i = if 0 < g.height then resolveAddr r g.height i else none := by
  unfold addrOf
  rw [hroot]

theorem addrOf_none (g : GA) (i : Nat) (hroot : g.root = none) :
    addrOf g i = none := by
  unfold addrOf
  rw [hroot]

theorem addrOf_growOnce (g : GA) (index : Nat) (a : Nat × Nat)
    (hi : index < 2 ^ (SEGMENT_LOGSIZE * g.height))
    (h : addrOf g index = some a) : addrOf (growOnce g) index = some a := by
  rcases hroot : g.root with _ | r
  · rw [addrOf_none g index hroot] at h; cases h
  · rw [addrOf_some g index r hroot] at h
    by_cases hh : 0 < g.height
    case neg => rw [if_neg hh] at h; cases h
    case pos =>
      rw [if_pos hh] at h
      obtain ⟨h', hh'⟩ : ∃ h', g.height = h' + 1 := ⟨g.height - 1, by omega⟩
      rw [addrOf_some (growOnce g) index
            (.node g.fresh fun d => if d = 0 then g.root else none) rfl]
      rw [if_pos (by show 0 < g.height + 1; omega)]
      show resolveAddr _ (g.height + 1) index = some a
      rw [hh']
      show resolveAddr _ (h' + 2) index = some a
      simp only [resolveAddr, Seg.children]
      have hd0 : digit index (h' + 2) = 0 := by
        unfold digit
        have : index / 2 ^ (SEGMENT_LOGSIZE * (h' + 2 - 1)) = 0 := by
          apply Nat.div_eq_of_lt
          calc index < 2 ^ (SEGMENT_LOGSIZE * g.height) := hi
            _ = 2 ^ (SEGMENT_LOGSIZE * (h' + 2 - 1)) := by rw [hh']; norm_num
        rw [this]
        rfl
      rw [hd0]
      simp only [if_pos rfl, hroot]
      rw [hh'] at h
      exact h

theorem addrOf_ensureHeight : ∀ (fuel : Nat) (g g' : GA) (i j : Nat) (a : Nat × Nat),
    i < 2 ^ (SEGMENT_LOGSIZE * g.height) → addrOf g i = some a →
    ensureHeight fuel g j = some g' →
    addrOf g' i = some a ∧ i < 2 ^ (SEGMENT_LOGSIZE * g'.height) := by
  intro fuel
  induction fuel with
  | zero => intro g g' i j a _ _ he; exact absurd he (by simp [ensureHeight])
  | succ n ih =>
    intro g g' i j a hi ha he
    rw [ensureHeight] at he
    split at he
    · cases he; exact ⟨ha, hi⟩
    · refine ih (growOnce g) g' i j a ?_ (addrOf_growOnce g i a hi ha) he
      have hg2 : (growOnce g).height = g.height + 1 := rfl
      rw [hg2]
      have hmono : 2 ^ (SEGMENT_LOGSIZE * g.height)
          ≤ 2 ^ (SEGMENT_LOGSIZE * (g.height + 1)) :=
        Nat.pow_le_pow_right (by norm_num) (Nat.mul_le_mul_left _ (by omega))
      omega

theorem addrOf_getGA (g : GA) (i j : Nat) (a : Nat × Nat) (g' : GA) (a' : Nat × Nat)
    (hi : i < 2 ^ (SEGMENT_LOGSIZE * g.height)) (h : addrOf g i = some a)
    (hg : getGA g j = some (g', a')) :
    addrOf g' i = some a ∧ i < 2 ^ (SEGMENT_LOGSIZE * g'.height) := by
  unfold getGA getGAF at hg
  rcases he : ensureHeight 8 g j with _ | g1
  · rw [he] at hg; cases hg
  · rw [he] at hg
    simp only [Option.some_bind] at hg
    obtain ⟨ha1, hi1⟩ := addrOf_ensureHeight 8 g g1 i j a hi h he
    rcases hroot : g1.root with _ | r
    · rw [hroot] at hg; cases hg
    · rw [hroot] at hg
      simp only [Option.some_inj, Prod.mk.injEq] at hg
      rw [addrOf_some g1 i r hroot] at ha1
      by_cases hpos : 0 < g1.height
      case neg => rw [if_neg hpos] at ha1; cases ha1
      case pos =>
        rw [if_pos hpos] at ha1
        constructor
        · rw [← hg.1]
          rw [addrOf_some _ i (descendAux g1.fresh r g1.height j).2.1 rfl]
          rw [if_pos (show (0:Nat) < g1.height from hpos)]
          exact resolve_mono g1.height r _ i a (descend_le g1.height g1.fresh r j) ha1
        · rw [← hg.1]
          exact hi1

theorem ensureHeight_lt (fuel : Nat) :
    ∀ g g' j, ensureHeight fuel g j = some g' → j < maxKey g'.height := by
  induction fuel with
  | zero => intro g g' j he; exact absurd he (by simp [ensureHeight])
  | succ n ih =>
    intro g g' j he
    rw [ensureHeight] at he
    split at he
    · cases he; assumption
    · exact ih _ _ _ he

theorem maxKey_lt_pow (h j : Nat) (hj : j < maxKey h) :
    j < 2 ^ (SEGMENT_LOGSIZE * h) ∧ j < 2 ^ 64 - 1 ∧ 0 < h := by
  unfold maxKey at hj
  by_cases hpos : 0 < h
  · rw [if_pos hpos] at hj
    have h1 : 2 ^ min 64 (SEGMENT_LOGSIZE * h) ≤ 2 ^ (SEGMENT_LOGSIZE * h) :=
      Nat.pow_le_pow_right (by norm_num) (Nat.min_le_right _ _)
    have h2 : 2 ^ min 64 (SEGMENT_LOGSIZE * h) ≤ 2 ^ 64 :=
      Nat.pow_le_pow_right (by norm_num) (Nat.min_le_left _ _)
    exact ⟨by omega, by omega, hpos⟩
  · rw [if_neg hpos] at hj
    omega

theorem getGA_addrOf (g : GA) (i : Nat) (g' : GA) (a : Nat × Nat)
    (hg : getGA g i = some (g', a)) :
    addrOf g' i = some a ∧ i < 2 ^ (SEGMENT_LOGSIZE * g'.height) ∧ i < 2 ^ 64 - 1 := by
  unfold getGA getGAF at hg
  rcases he : ensureHeight 8 g i with _ | g1
  · rw [he] at hg; cases hg
  · rw [he] at hg
    simp only [Option.some_bind] at hg
    have hlt := ensureHeight_lt 8 g g1 i he
    obtain ⟨hb1, hb2, hpos⟩ := maxKey_lt_pow g1.height i hlt
    rcases hroot : g1.root with _ | r
    · rw [hroot] at hg; cases hg
    · rw [hroot] at hg
      simp only [Option.some_inj, Prod.mk.injEq] at hg
      refine ⟨?_, by rw [← hg.1]; exact hb1, hb2⟩
      rw [← hg.1, ← hg.2]
      rw [addrOf_some _ i (descendAux g1.fresh r g1.height i).2.1 rfl]
      rw [if_pos (show (0:Nat) < g1.height from hpos)]
      exact descend_resolves g1.height g1.fresh r i

theorem ensureHeight_total : ∀ (fuel : Nat) (g : GA) (i : Nat), i < 2 ^ 64 - 1 →
    7 ≤ g.height + fuel → ∃ g', ensureHeight (fuel + 1) g i = some g' := by
  intro fuel
  induction fuel with
  | zero =>
    intro g i hi hh
    have h64 : min 64 (SEGMENT_LOGSIZE * g.height) = 64 := by
      have : 64 ≤ SEGMENT_LOGSIZE * g.height := by
        unfold SEGMENT_LOGSIZE
        omega
      omega
    have hmk : maxKey g.height = 2 ^ 64 - 1 := by
      unfold maxKey
      rw [if_pos (by omega), h64]
    refine ⟨g, ?_⟩
    rw [ensureHeight, if_pos (by rw [hmk]; omega)]
  | succ n ih =>
    intro g i hi hh
    rw [ensureHeight]
    split
    · exact ⟨g, rfl⟩
    · refine ih (growOnce g) i hi ?_
      have hg2 : (growOnce g).height = g.height + 1 := rfl
      omega

theorem getGA_of_addrOf (g : GA) (i : Nat) (a : Nat × Nat)
    (hi64 : i < 2 ^ 64 - 1) (hi : i < 2 ^ (SEGMENT_LOGSIZE * g.height))
    (h : addrOf g i = some a) : ∃ g', getGA g i = some (g', a) := by
  obtain ⟨g1, he⟩ := ensureHeight_total 7 g i hi64 (by omega)
  obtain ⟨ha1, _⟩ := addrOf_ensureHeight 8 g g1 i i a hi h he
  unfold getGA getGAF
  rw [he]
  simp only [Option.some_bind]
  rcases hroot : g1.root with _ | r
  · rw [addrOf_none g1 i hroot] at ha1; cases ha1
  · rw [addrOf_some g1 i r hroot] at ha1
    by_cases hpos : 0 < g1.height
    case neg => rw [if_neg hpos] at ha1; cases ha1
    case pos =>
      rw [if_pos hpos] at ha1
      have hres := descend_follows g1.height g1.fresh r i a ha1
      exact ⟨_, by rw [← hres]⟩

theorem addrOf_runGets : ∀ (js : List Nat) (g g' : GA) (i : Nat) (a : Nat × Nat),
    i < 2 ^ (SEGMENT_LOGSIZE * g.height) → addrOf g i = some a →
    runGets g js = some g' →
    addrOf g' i = some a ∧ i < 2 ^ (SEGMENT_LOGSIZE * g'.height) := by
  intro js
  induction js with
  | nil =>
    intro g g' i a hi ha hr
    cases hr
    exact ⟨ha, hi⟩
  | cons j js ih =>
    intro g g' i a hi ha hr
    unfold runGets at hr
    rw [List.foldlM_cons] at hr
    rcases hg : getGA g j with _ | p
    · rw [hg] at hr; cases hr
    · rw [hg] at hr
      simp only [Option.map_some', Option.some_bind] at hr
      obtain ⟨ha1, hi1⟩ := addrOf_getGA g i j a p.1 p.2 hi ha (by rw [hg])
      exact ih p.1 g' i a hi1 ha1 hr

/-- C6: once `get(i)` has returned a slot address, any later `get(i)` — after
any interleaved sequence of `get` calls on arbitrary indices, including ones
that grow the trie's height — returns the same slot address. -/
theorem getGA_slot_stable (g : GA) (i : Nat) (g₁ : GA) (a : Nat × Nat)
    (js : List Nat) (g₂ : GA)
    (h1 : getGA g i = some (g₁, a)) (h2 : runGets g₁ js = some g₂) :
    ∃ g₃, getGA g₂ i = some (g₃, a) := by
  obtain ⟨ha1, hb1, hi64⟩ := getGA_addrOf g i g₁ a h1
  obtain ⟨ha2, hb2⟩ := addrOf_runGets js g₁ g₂ i a hb1 ha1 h2
  exact getGA_of_addrOf g₂ i a hi64 hb2 ha2

/-- Witness for C6: `get(5)` on a fresh array returns slot `(0, 5)`; after a
further `get(1047552)` (which grows the height from 1 to 2), `get(5)` still
returns slot `(0, 5)`. -/
theorem getGA_slot_stable_witness : ∃ g₃, getGA gaBug 5 = some (g₃, (0, 5)) :=
  getGA_slot_stable GA.new 5 gaW2 (0, 5) [1047552] gaBug rfl rfl

/-! ### Split-ordered list (`SplitOrderedList<V>`)

Sequential model.  The external `lockfree::list` crate (same repository,
outside `src/`) is modelled from the spec's contract (§6): a cursor is a
position in the sorted list; `find_harris` advances the cursor to the first
node with key ≥ the search key and reports equality; `insert` links the new
node at the cursor and leaves the cursor on it; `delete` unlinks the current
node and yields its value; `lookup` reads the current node's value.
Counters are `usize`: their updates wrap modulo `2 ^ 64`. -/

/-- `SplitOrderedList::LOAD_FACTOR`. -/
def LOAD_FACTOR : Nat := 2

/-- The loop `while { parent = parent >> 1; parent > index } {}` of
`lookup_bucket`, with fuel `p` (each iteration at least halves `p`, so `p`
iterations always suffice; see `halveUntilAux_fuel`). -/
def halveUntilAux : Nat → Nat → Nat → Nat
  | 0, p, _ => p / 2
  | fuel + 1, p, index => if p / 2 > index then halveUntilAux fuel (p / 2) index else p / 2

def halveUntil (p index : Nat) : Nat := halveUntilAux p p index

/-- The parent bucket computed by `lookup_bucket`: `index - parent` after the
halving loop. -/
def bucketParent (size index : Nat) : Nat := index - halveUntil size index

/-- Whether `lookup_bucket` anchors at the list head (`parent == 0`) rather
than recursing to the parent bucket's cursor. -/
def usesHead (size index : Nat) : Bool := bucketParent size index == 0

structure SOL (V : Type) where
  /-- The sorted list, as (list-key, value) nodes; `none` marks a sentinel. -/
  list : List (Nat × Option V)
  /-- The bucket trie: trie index ↦ the node published in that slot. -/
  buckets : Nat → Option (Nat × Option V)
  size : Nat
  count : Nat

/-- `SplitOrderedList::new`: empty list, no published buckets, `size = 2`,
`count = 0`. -/
def SOL.new (V : Type) : SOL V := ⟨[], fun _ => none, 2, 0⟩

/-- Scan for the first entry with key ≥ `k` (Harris find, sequentially):
the number of entries strictly before it. -/
def posFrom {V : Type} : List (Nat × Option V) → Nat → Nat
  | [], _ => 0
  | p :: l, k => if k ≤ p.1 then 0 else posFrom l k + 1

/-- `find_harris` from a cursor at position `start`: the cursor's final
position. -/
def findFrom {V : Type} (l : List (Nat × Option V)) (start k : Nat) : Nat :=
  start + posFrom (l.drop start) k

/-- Position of the (unique, by sortedness) node with key `k`: where
`Cursor::from_raw` on the published node sits in the list. -/
def idxOfKey {V : Type} : List (Nat × Option V) → Nat → Nat
  | [], _ => 0
  | p :: l, k => if p.1 = k then 0 else idxOfKey l k + 1

/-- Whether the cursor at `pos` is on a node with key `k` (the `found` result
of `find_harris`). -/
def foundAt {V : Type} (l : List (Nat × Option V)) (pos k : Nat) : Bool :=
  match l[pos]? with
  | some nd => nd.1 == k
  | none => false

/-- `Cursor::insert`: link `x` in front of the cursor's current node. -/
def insertAt {α : Type} : Nat → α → List α → List α
  | 0, x, l => x :: l
  | _ + 1, x, [] => [x]
  | n + 1, x, a :: l => a :: insertAt n x l

/-- `Cursor::delete`: unlink the cursor's current node. -/
def eraseAt {α : Type} : Nat → List α → List α
  | _, [] => []
  | 0, _ :: l => l
  | n + 1, a :: l => a :: eraseAt n l

/-- The trie-slot publication CAS of `lookup_bucket`: store `nd` at trie
index `rk` if the slot is still null, otherwise keep the published node (the
loser drops its intent). -/
def publish {V : Type} (s : SOL V) (rk : Nat) (nd : Nat × Option V) : SOL V :=
  { s with buckets := fun t =>
      if t = rk then
        match s.buckets rk with
        | none => some nd
        | some old => some old
      else s.buckets t }

/-- `lookup_bucket` (single-threaded), with fuel bounding the recursion depth
(the parent bucket is strictly smaller, so `index + 1` suffices).  Returns
the updated state and the cursor position of the bucket's sentinel. -/
def lookupBucketF {V : Type} : Nat → SOL V → Nat → Option (SOL V × Nat)
  | 0, _, _ => none
  | fuel + 1, s, index =>
    let rk := rev64 index
    match s.buckets rk with
    | some _ => some (s, idxOfKey s.list rk)
    | none =>
      let anchor : Option (SOL V × Nat) :=
        if bucketParent s.size index = 0 then some (s, 0)
        else lookupBucketF fuel s (bucketParent s.size index)
      anchor.bind fun sp =>
        let pos := findFrom sp.1.list sp.2 rk
        match sp.1.list[pos]? with
        | some nd =>
          if nd.1 = rk then
            some (publish sp.1 rk nd, pos)
          else
            some (publish { sp.1 with list := insertAt pos (rk, none) sp.1.list }
              rk (rk, none), pos)
        | none =>
          some (publish { sp.1 with list := insertAt pos (rk, none) sp.1.list }
            rk (rk, none), pos)

/-- `SplitOrderedList::find`: read `size`, look up the bucket of
`key % size`, then Harris-find the content key from the bucket cursor.
Returns `(state, size snapshot, found, cursor position)`. -/
def findOp {V : Type} (s : SOL V) (key : Nat) : Option (SOL V × Nat × Bool × Nat) :=
  (lookupBucketF (key % s.size + 1) s (key % s.size)).map fun sp =>
    let ck := make_content_key key
    let pos := findFrom sp.1.list sp.2 ck
    (sp.1, s.size, foundAt sp.1.list pos ck, pos)

/-- `SplitOrderedList::insert` (single-threaded): find; if found return
`Err(value)`; otherwise link the data node, `fetch_add` the count, and — when
the pre-increment count exceeds `size * LOAD_FACTOR` — CAS `size` from the
snapshot to its double. -/
def insertOp {V : Type} (s : SOL V) (key : Nat) (v : V) : Option (SOL V × Except V Unit) :=
  (findOp s key).map fun r =>
    if r.2.2.1 then (r.1, .error v)
    else
      let s2 : SOL V :=
        { r.1 with list := insertAt r.2.2.2 (make_content_key key, some v) r.1.list }
      let pre := s2.count
      let s3 : SOL V := { s2 with count := (pre + 1) % 2 ^ 64 }
      let s4 : SOL V :=
        if pre > s3.size * LOAD_FACTOR % 2 ^ 64 then
          if s3.size = r.2.1 then { s3 with size := r.2.1 * 2 % 2 ^ 64 } else s3
        else s3
      (s4, .ok ())

/-- `SplitOrderedList::delete` (single-threaded): find; if absent return
`Err`; otherwise unlink the node, `fetch_sub` the count, and return the
value.  The `unwrap` of a sentinel's absent value and a `found` cursor
resting on no node are modelled as `none` (they are unreachable: found keys
are odd, hence data nodes). -/
def deleteOp {V : Type} (s : SOL V) (key : Nat) : Option (SOL V × Except Unit V) :=
  (findOp s key).bind fun r =>
    if r.2.2.1 then
      match r.1.list[r.2.2.2]? with
      | some nd =>
        match nd.2 with
        | some v =>
          some ({ r.1 with
                    list := eraseAt r.2.2.2 r.1.list
                    count := (r.1.count + (2 ^ 64 - 1)) % 2 ^ 64 }, .ok v)
        | none => none
      | none => none
    else some (r.1, .error ())

/-- `SplitOrderedList::lookup` (single-threaded). -/
def lookupOp {V : Type} (s : SOL V) (key : Nat) : Option (SOL V × Option V) :=
  (findOp s key).bind fun r =>
    if r.2.2.1 then
      match r.1.list[r.2.2.2]? with
      | some nd => some (r.1, nd.2)
      | none => none
    else some (r.1, none)

inductive MapOp (V : Type) where
  | ins (key : Nat) (v : V)
  | del (key : Nat)
  | look (key : Nat)

/-- One public map operation.  `assert_valid_key` aborts (without touching
the state) on a key with the most-significant bit set, modelled as the
identity; the `none` results of the fueled models never arise from reachable
states (`MapInv_stepOp`) and are also kept as the identity. -/
def stepOp {V : Type} (s : SOL V) : MapOp V → SOL V
  | .ins k v =>
    if k < 2 ^ 63 then match insertOp s k v with | some r => r.1 | none => s else s
  | .del k =>
    if k < 2 ^ 63 then match deleteOp s k with | some r => r.1 | none => s else s
  | .look k =>
    if k < 2 ^ 63 then match lookupOp s k with | some r => r.1 | none => s else s

/-- The map state after a sequence of operations on a fresh map. -/
def runOps {V : Type} (ops : List (MapOp V)) : SOL V := ops.foldl stepOp (SOL.new V)

def keys {V : Type} (l : List (Nat × Option V)) : List Nat := l.map Prod.fst

/-- Number of data nodes (value present) in the list. -/
def dataCount {V : Type} (l : List (Nat × Option V)) : Nat :=
  (l.filter fun p => p.2.isSome).length

/-- Invariant of reachable map states. -/
structure MapInv {V : Type} (s : SOL V) : Prop where
  size_pow : ∃ j, 1 ≤ j ∧ j ≤ 62 ∧ s.size = 2 ^ j
  sorted : List.Pairwise (fun a b : Nat × Option V => a.1 < b.1) s.list
  keys_lt : ∀ p ∈ s.list, p.1 < 2 ^ 64
  parity : ∀ p ∈ s.list, (p.1 % 2 = 0 → p.2 = none) ∧ (p.1 % 2 = 1 → p.2.isSome)
  count_eq : s.count = dataCount s.list
  buckets_ok : ∀ t nd, s.buckets t = some nd →
    nd.1 = t ∧ nd.2 = none ∧ t % 2 = 0 ∧ t ∈ keys s.list

theorem posFrom_le {V : Type} : ∀ (l : List (Nat × Option V)) (k : Nat),
    posFrom l k ≤ l.length
  | [], _ => Nat.le_refl 0
  | p :: l, k => by
    rw [posFrom]
    split
    · omega
    · have := posFrom_le l k
      simp only [List.length_cons]
      omega

theorem posFrom_lt {V : Type} : ∀ (l : List (Nat × Option V)) (k i : Nat),
    i < posFrom l k → ∃ p, l[i]? = some p ∧ p.1 < k
  | [], k, i, h => by rw [posFrom] at h; omega
  | p :: l, k, i, h => by
    rw [posFrom] at h
    split at h
    · omega
    · match i with
      | 0 => exact ⟨p, by simp, by omega⟩
      | i + 1 =>
        obtain ⟨q, hq, hlt⟩ := posFrom_lt l k i (by omega)
        exact ⟨q, by simpa using hq, hlt⟩

theorem posFrom_ge {V : Type} : ∀ (l : List (Nat × Option V)) (k : Nat) (p : Nat × Option V),
    l[posFrom l k]? = some p → k ≤ p.1
  | [], k, p, h => by cases h
  | q :: l, k, p, h => by
    rw [posFrom] at h
    split at h
    case isTrue hle =>
      simp only [List.getElem?_cons_zero, Option.some_inj] at h
      rw [← h]
      exact hle
    case isFalse hgt =>
      simp only [List.getElem?_cons_succ] at h
      exact posFrom_ge l k p h

theorem findFrom_start_le {V : Type} (l : List (Nat × Option V)) (start k : Nat) :
    start ≤ findFrom l start k := Nat.le_add_right _ _

theorem findFrom_le {V : Type} (l : List (Nat × Option V)) (start k : Nat)
    (h : start ≤ l.length) : findFrom l start k ≤ l.length := by
  have h1 := posFrom_le (l.drop start) k
  rw [List.length_drop] at h1
  unfold findFrom
  omega

theorem findFrom_lt {V : Type} (l : List (Nat × Option V)) (start k i : Nat)
    (h1 : start ≤ i) (h2 : i < findFrom l start k) :
    ∃ p, l[i]? = some p ∧ p.1 < k := by
  unfold findFrom at h2
  obtain ⟨p, hp, hlt⟩ := posFrom_lt (l.drop start) k (i - start) (by omega)
  rw [List.getElem?_drop] at hp
  exact ⟨p, by rw [show start + (i - start) = i by omega] at hp; exact hp, hlt⟩

theorem findFrom_ge {V : Type} (l : List (Nat × Option V)) (start k : Nat)
    (p : Nat × Option V) (h : l[findFrom l start k]? = some p) : k ≤ p.1 := by
  apply posFrom_ge (l.drop start) k p
  rw [List.getElem?_drop]
  exact h

theorem insertAt_perm {α : Type} : ∀ (n : Nat) (x : α) (l : List α),
    (insertAt n x l).Perm (x :: l)
  | 0, x, l => List.Perm.refl _
  | n + 1, x, [] => List.Perm.refl _
  | n + 1, x, a :: l => by
    rw [insertAt]
    exact ((insertAt_perm n x l).cons a).trans (List.Perm.swap x a l)

theorem length_insertAt {α : Type} : ∀ (n : Nat) (x : α) (l : List α),
    (insertAt n x l).length = l.length + 1 := by
  intro n x l
  exact (insertAt_perm n x l).length_eq

theorem getElem?_insertAt_lt {α : Type} : ∀ (n : Nat) (x : α) (l : List α) (i : Nat),
    i < n → n ≤ l.length → (insertAt n x l)[i]? = l[i]?
  | 0, x, l, i, h, _ => by omega
  | n + 1, x, [], i, h, hn => by simp at hn
  | n + 1, x, a :: l, 0, h, hn => by rw [insertAt]; simp
  | n + 1, x, a :: l, i + 1, h, hn => by
    rw [insertAt]
    simp only [List.getElem?_cons_succ]
    exact getElem?_insertAt_lt n x l i (by omega) (by simpa using hn)

theorem getElem?_insertAt_self {α : Type} : ∀ (n : Nat) (x : α) (l : List α),
    n ≤ l.length → (insertAt n x l)[n]? = some x
  | 0, x, l, _ => by rw [insertAt]; simp
  | n + 1, x, [], hn => by simp at hn
  | n + 1, x, a :: l, hn => by
    rw [insertAt]
    simp only [List.getElem?_cons_succ]
    exact getElem?_insertAt_self n x l (by simpa using hn)

theorem getElem?_insertAt_gt {α : Type} : ∀ (n : Nat) (x : α) (l : List α) (i : Nat),
    n < i → (insertAt n x l)[i]? = l[i - 1]?
  | _, _, _, 0, h => by omega
  | 0, x, l, i + 1, _ => by
    rw [insertAt]
    simp
  | n + 1, x, [], i + 1, h => by
    rw [insertAt]
    simp
  | n + 1, x, a :: l, i + 1, h => by
    rw [insertAt]
    simp only [List.getElem?_cons_succ, Nat.add_sub_cancel]
    rw [getElem?_insertAt_gt n x l i (by omega)]
    rcases i with _ | i
    · omega
    · simp

theorem eraseAt_perm {α : Type} : ∀ (n : Nat) (l : List α) (a : α),
    l[n]? = some a → l.Perm (a :: eraseAt n l)
  | n, [], a, h => by cases h
  | 0, b :: l, a, h => by
    simp only [List.getElem?_cons_zero, Option.some_inj] at h
    rw [h, eraseAt]
  | n + 1, b :: l, a, h => by
    simp only [List.getElem?_cons_succ] at h
    rw [eraseAt]
    exact ((eraseAt_perm n l a h).cons b).trans (List.Perm.swap a b _)

theorem eraseAt_sublist {α : Type} : ∀ (n : Nat) (l : List α), (eraseAt n l).Sublist l
  | _, [] => by rw [eraseAt]
  | 0, b :: l => by rw [eraseAt]; exact List.sublist_cons_self b l
  | n + 1, b :: l => by rw [eraseAt]; exact (eraseAt_sublist n l).cons₂ b

theorem getElem?_eraseAt_lt {α : Type} : ∀ (n : Nat) (l : List α) (i : Nat),
    i < n → (eraseAt n l)[i]? = l[i]?
  | n, [], i, h => by rw [eraseAt]
  | 0, b :: l, i, h => by omega
  | n + 1, b :: l, 0, h => by rw [eraseAt]; simp
  | n + 1, b :: l, i + 1, h => by
    rw [eraseAt]
    simp only [List.getElem?_cons_succ]
    exact getElem?_eraseAt_lt n l i (by omega)

theorem getElem?_eraseAt_ge {α : Type} : ∀ (n : Nat) (l : List α) (i : Nat),
    n ≤ i → (eraseAt n l)[i]? = l[i + 1]?
  | n, [], i, h => by rw [eraseAt]; simp
  | 0, b :: l, i, h => by rw [eraseAt]; simp
  | n + 1, b :: l, 0, h => by omega
  | n + 1, b :: l, i + 1, h => by
    rw [eraseAt]
    simp only [List.getElem?_cons_succ]
    exact getElem?_eraseAt_ge n l i (by omega)

theorem idxOfKey_spec {V : Type} : ∀ (l : List (Nat × Option V)) (k : Nat),
    k ∈ keys l → ∃ vo, l[idxOfKey l k]? = some (k, vo)
  | [], k, h => by cases h
  | p :: l, k, h => by
    rw [idxOfKey]
    split
    case isTrue he => exact ⟨p.2, by simp [← he]⟩
    case isFalse he =>
      simp only [List.getElem?_cons_succ]
      apply idxOfKey_spec l k
      unfold keys at h ⊢
      simp only [List.map_cons, List.mem_cons] at h
      rcases h with h | h
      · exact absurd h.symm he
      · exact h

theorem sorted_getElem?_lt {V : Type} (l : List (Nat × Option V))
    (hs : List.Pairwise (fun a b : Nat × Option V => a.1 < b.1) l)
    (i j : Nat) (p q : Nat × Option V) (hij : i < j)
    (hp : l[i]? = some p) (hq : l[j]? = some q) : p.1 < q.1 := by
  rw [List.getElem?_eq_some_iff] at hp hq
  obtain ⟨hi, hp⟩ := hp
  obtain ⟨hj, hq⟩ := hq
  subst hp hq
  exact List.pairwise_iff_getElem.mp hs i j hi hj hij

theorem insertAt_entry {α : Type} (n : Nat) (x : α) (l : List α) (i : Nat) (q : α)
    (hn : n ≤ l.length) (h : (insertAt n x l)[i]? = some q) :
    (i < n ∧ l[i]? = some q) ∨ (i = n ∧ q = x) ∨ (n < i ∧ l[i - 1]? = some q) := by
  rcases Nat.lt_trichotomy i n with hc | hc | hc
  · exact Or.inl ⟨hc, by rw [← getElem?_insertAt_lt n x l i hc hn]; exact h⟩
  · subst hc
    rw [getElem?_insertAt_self i x l hn] at h
    injection h with h
    exact Or.inr (Or.inl ⟨rfl, h.symm⟩)
  · exact Or.inr (Or.inr ⟨hc, by rw [← getElem?_insertAt_gt n x l i hc]; exact h⟩)

theorem sorted_insertAt {V : Type} (l : List (Nat × Option V)) (x : Nat × Option V) (n : Nat)
    (hs : List.Pairwise (fun a b : Nat × Option V => a.1 < b.1) l) (hn : n ≤ l.length)
    (hbefore : ∀ i p, i < n → l[i]? = some p → p.1 < x.1)
    (hafter : ∀ i p, n ≤ i → l[i]? = some p → x.1 < p.1) :
    List.Pairwise (fun a b : Nat × Option V => a.1 < b.1) (insertAt n x l) := by
  rw [List.pairwise_iff_getElem]
  intro i j hi hj hij
  obtain ⟨pi, hpi⟩ : ∃ p, (insertAt n x l)[i]? = some p :=
    ⟨_, List.getElem?_eq_getElem hi⟩
  obtain ⟨pj, hpj⟩ : ∃ p, (insertAt n x l)[j]? = some p :=
    ⟨_, List.getElem?_eq_getElem hj⟩
  have hgi : (insertAt n x l)[i] = pi :=
    Option.some_inj.mp ((List.getElem?_eq_getElem hi).symm.trans hpi)
  have hgj : (insertAt n x l)[j] = pj :=
    Option.some_inj.mp ((List.getElem?_eq_getElem hj).symm.trans hpj)
  rw [hgi, hgj]
  rcases insertAt_entry n x l i pi hn hpi with ⟨h1, h2⟩ | ⟨h1, h2⟩ | ⟨h1, h2⟩ <;>
    rcases insertAt_entry n x l j pj hn hpj with ⟨g1, g2⟩ | ⟨g1, g2⟩ | ⟨g1, g2⟩
  · exact sorted_getElem?_lt l hs i j _ _ hij h2 g2
  · rw [g2]
    exact hbefore i _ h1 h2
  · rcases Nat.lt_or_ge i (j - 1) with hd | hd
    · exact sorted_getElem?_lt l hs i (j - 1) _ _ hd h2 g2
    · omega
  · omega
  · omega
  · rw [h2]
    exact hafter (j - 1) _ (by omega) g2
  · omega
  · omega
  · exact sorted_getElem?_lt l hs (i - 1) (j - 1) _ _ (by omega) h2 g2

theorem dataCount_perm {V : Type} (l l' : List (Nat × Option V)) (h : l.Perm l') :
    dataCount l = dataCount l' := by
  unfold dataCount
  rw [← List.countP_eq_length_filter, ← List.countP_eq_length_filter]
  exact h.countP_eq _

theorem dataCount_cons {V : Type} (x : Nat × Option V) (l : List (Nat × Option V)) :
    dataCount (x :: l) = (if x.2.isSome then 1 else 0) + dataCount l := by
  unfold dataCount
  rw [List.filter_cons]
  split
  · simp only [List.length_cons]; omega
  · omega

theorem dataCount_insertAt {V : Type} (n : Nat) (x : Nat × Option V)
    (l : List (Nat × Option V)) :
    dataCount (insertAt n x l) = (if x.2.isSome then 1 else 0) + dataCount l := by
  rw [dataCount_perm _ _ (insertAt_perm n x l), dataCount_cons]

theorem dataCount_eraseAt {V : Type} (n : Nat) (l : List (Nat × Option V))
    (nd : Nat × Option V) (h : l[n]? = some nd) :
    dataCount l = (if nd.2.isSome then 1 else 0) + dataCount (eraseAt n l) := by
  rw [dataCount_perm _ _ (eraseAt_perm n l nd h), dataCount_cons]

theorem make_content_key_odd (k : Nat) : make_content_key k % 2 = 1 := by
  unfold make_content_key
  rw [rev64_mod_two, testBit_hi_or_63]
  rfl

theorem rev64_even_of_lt (b : Nat) (h : b < 2 ^ 63) : rev64 b % 2 = 0 := by
  rw [rev64_mod_two, Nat.testBit_lt_two_pow h]
  rfl

theorem halveUntilAux_zero : ∀ (fuel index : Nat), halveUntilAux fuel 0 index = 0
  | 0, _ => rfl
  | fuel + 1, index => by
    rw [halveUntilAux]
    norm_num

theorem halveUntilAux_fuel : ∀ (fuel fuel' p index : Nat), p ≤ fuel → p ≤ fuel' →
    halveUntilAux fuel p index = halveUntilAux fuel' p index := by
  intro fuel
  induction fuel with
  | zero =>
    intro fuel' p index h _
    have : p = 0 := by omega
    subst this
    rw [halveUntilAux_zero, halveUntilAux_zero]
  | succ n ih =>
    intro fuel' p index h h'
    cases fuel' with
    | zero =>
      have : p = 0 := by omega
      subst this
      rw [halveUntilAux_zero, halveUntilAux_zero]
    | succ m =>
      rw [halveUntilAux, halveUntilAux]
      split
      case isTrue hgt => exact ih m (p / 2) index (by omega) (by omega)
      case isFalse => rfl

theorem halveUntil_step (p index : Nat) (hp : 1 ≤ p) :
    halveUntil p index = if p / 2 > index then halveUntil (p / 2) index else p / 2 := by
  unfold halveUntil
  obtain ⟨f, hf⟩ : ∃ f, p = f + 1 := ⟨p - 1, by omega⟩
  subst hf
  rw [halveUntilAux]
  split
  case isTrue h =>
    exact halveUntilAux_fuel f ((f + 1) / 2) ((f + 1) / 2) index (by omega) (Nat.le_refl _)
  case isFalse h => rfl

theorem halveUntil_pow : ∀ (j b : Nat), 1 ≤ b → b < 2 ^ j →
    halveUntil (2 ^ j) b = 2 ^ Nat.log 2 b
  | 0, b, h1, h2 => by simp at h2; omega
  | j + 1, b, h1, h2 => by
    rw [halveUntil_step _ _ (by have := Nat.pos_pow_of_pos (j + 1) (show 0 < 2 by norm_num); omega)]
    have hdiv : 2 ^ (j + 1) / 2 = 2 ^ j := by rw [pow_succ]; omega
    rw [hdiv]
    by_cases hc : 2 ^ j > b
    · rw [if_pos hc]
      exact halveUntil_pow j b h1 hc
    · rw [if_neg hc]
      have hlog : Nat.log 2 b = j :=
        Nat.log_eq_of_pow_le_of_lt_pow (by omega) (by omega)
      rw [hlog]

theorem bucketParent_spec (j b : Nat) (h1 : 1 ≤ b) (h2 : b < 2 ^ j) :
    bucketParent (2 ^ j) b = b % 2 ^ Nat.log 2 b ∧
    2 ^ Nat.log 2 b ≤ b ∧ b < 2 ^ (Nat.log 2 b + 1) := by
  have hle := Nat.pow_log_le_self 2 (show b ≠ 0 by omega)
  have hlt := Nat.lt_pow_succ_log_self (show 1 < 2 by norm_num) b
  unfold bucketParent
  rw [halveUntil_pow j b h1 h2]
  refine ⟨?_, hle, hlt⟩
  have hmod : b % 2 ^ Nat.log 2 b = (b - 2 ^ Nat.log 2 b) % 2 ^ Nat.log 2 b :=
    Nat.mod_eq_sub_mod hle
  have hpow : 2 ^ (Nat.log 2 b + 1) = 2 * 2 ^ Nat.log 2 b := by ring
  rw [hmod, Nat.mod_eq_of_lt (by omega)]

theorem bucketParent_zero (size : Nat) : bucketParent size 0 = 0 := by
  unfold bucketParent
  omega

theorem mem_of_getElem? {α : Type} (l : List α) (i : Nat) (a : α) (h : l[i]? = some a) :
    a ∈ l := by
  rw [List.getElem?_eq_some_iff] at h
  obtain ⟨hi, h⟩ := h
  exact h ▸ List.getElem_mem hi

theorem dataCount_pos {V : Type} (l : List (Nat × Option V)) (nd : Nat × Option V)
    (hnd : nd ∈ l) (hsome : nd.2.isSome) : 1 ≤ dataCount l :=
  List.length_pos_of_mem (List.mem_filter.mpr ⟨hnd, hsome⟩)

/-- At most `2 ^ 63` data nodes can coexist: their keys are distinct odd
64-bit values. -/
theorem dataCount_le {V : Type} (l : List (Nat × Option V))
    (hs : List.Pairwise (fun a b : Nat × Option V => a.1 < b.1) l)
    (hlt : ∀ p ∈ l, p.1 < 2 ^ 64)
    (hodd : ∀ p ∈ l, p.2.isSome → p.1 % 2 = 1) :
    dataCount l ≤ 2 ^ 63 := by
  have hsub : (l.filter fun p => p.2.isSome).Sublist l := List.filter_sublist l
  have hsf : List.Pairwise (fun a b : Nat × Option V => a.1 < b.1)
      (l.filter fun p => p.2.isSome) := List.Pairwise.sublist hsub hs
  have hsf' := List.Pairwise.and_mem.mp hsf
  have hmap : List.Pairwise (· < ·)
      ((l.filter fun p => p.2.isSome).map fun p => p.1 / 2) := by
    refine List.Pairwise.map _ ?_ hsf'
    rintro a b ⟨ha, hb, hab⟩
    have hoa : a.1 % 2 = 1 := hodd a (hsub.mem ha) (List.mem_filter.mp ha).2
    have hob : b.1 % 2 = 1 := hodd b (hsub.mem hb) (List.mem_filter.mp hb).2
    omega
  have hnodup : ((l.filter fun p => p.2.isSome).map fun p => p.1 / 2).Nodup :=
    List.Pairwise.imp (fun h => Nat.ne_of_lt h) hmap
  have hbound : ∀ x ∈ (l.filter fun p => p.2.isSome).map fun p => p.1 / 2,
      x < 2 ^ 63 := by
    intro x hx
    obtain ⟨p, hp, hpe⟩ := List.mem_map.mp hx
    have h1 : p.1 < 2 ^ 64 := hlt p (hsub.mem hp)
    omega
  have h1 : ((l.filter fun p => p.2.isSome).map fun p => p.1 / 2).toFinset.card
      = ((l.filter fun p => p.2.isSome).map fun p => p.1 / 2).length :=
    List.toFinset_card_of_nodup hnodup
  have h2 : ((l.filter fun p => p.2.isSome).map fun p => p.1 / 2).toFinset
      ⊆ Finset.range (2 ^ 63) := by
    intro x hx
    exact Finset.mem_range.mpr (hbound x (List.mem_toFinset.mp hx))
  have h3 := Finset.card_le_card h2
  rw [Finset.card_range, h1, List.length_map] at h3
  unfold dataCount
  omega

theorem mem_keys {V : Type} (l : List (Nat × Option V)) (k : Nat) :
    k ∈ keys l ↔ ∃ vo, (k, vo) ∈ l := by
  unfold keys
  rw [List.mem_map]
  constructor
  · rintro ⟨p, hp, he⟩
    exact ⟨p.2, by rw [show (k, p.2) = p from Prod.ext he.symm rfl]; exact hp⟩
  · rintro ⟨vo, hvo⟩
    exact ⟨(k, vo), hvo, rfl⟩

theorem publish_list {V : Type} (s : SOL V) (rk : Nat) (nd : Nat × Option V) :
    (publish s rk nd).list = s.list := rfl

theorem publish_size {V : Type} (s : SOL V) (rk : Nat) (nd : Nat × Option V) :
    (publish s rk nd).size = s.size := rfl

theorem publish_count {V : Type} (s : SOL V) (rk : Nat) (nd : Nat × Option V) :
    (publish s rk nd).count = s.count := rfl

theorem MapInv_publish {V : Type} (s : SOL V) (rk : Nat) (nd : Nat × Option V)
    (hInv : MapInv s) (h1 : nd.1 = rk) (h2 : nd.2 = none) (h3 : rk % 2 = 0)
    (h4 : rk ∈ keys s.list) : MapInv (publish s rk nd) := by
  refine ⟨hInv.size_pow, hInv.sorted, hInv.keys_lt, hInv.parity, hInv.count_eq, ?_⟩
  intro t nd' hnd'
  unfold publish at hnd'
  simp only at hnd'
  by_cases ht : t = rk
  · rw [if_pos ht] at hnd'
    rcases hbk : s.buckets rk with _ | old
    · rw [hbk] at hnd'
      injection hnd' with hnd'
      subst hnd'
      exact ⟨by rw [h1, ht], h2, by rw [ht]; exact h3, by rw [ht]; exact h4⟩
    · rw [hbk] at hnd'
      injection hnd' with hnd'
      subst hnd'
      rw [ht]
      exact hInv.buckets_ok rk old hbk
  · rw [if_neg ht] at hnd'
    exact hInv.buckets_ok t nd' hnd'

/-- State after `lookup_bucket` fails to find the sentinel `rk` from the
anchor position `apos` of `s1`: the sentinel is linked at the cursor and then
published in the trie slot. -/
def sentinelInserted {V : Type} (s1 : SOL V) (rk apos : Nat) : SOL V :=
  publish { s1 with list := insertAt (findFrom s1.list apos rk) (rk, none) s1.list }
    rk (rk, none)

theorem insert_branch_spec {V : Type} (s s1 : SOL V) (rk apos : Nat)
    (hInv1 : MapInv s1) (hrk_even : rk % 2 = 0) (hrk_lt : rk < 2 ^ 64)
    (hapos : apos ≤ s1.list.length)
    (hbefore : ∀ i p, i < findFrom s1.list apos rk → s1.list[i]? = some p → p.1 < rk)
    (hnotfound : ∀ nd, s1.list[findFrom s1.list apos rk]? = some nd → nd.1 ≠ rk)
    (hold1 : ∀ p ∈ s.list, p ∈ s1.list)
    (hnew1 : ∀ p ∈ s1.list, p ∈ s.list ∨ (p.1 % 2 = 0 ∧ p.2 = none)) :
    MapInv (sentinelInserted s1 rk apos) ∧
    (sentinelInserted s1 rk apos).size = s1.size ∧
    (sentinelInserted s1 rk apos).count = s1.count ∧
    (sentinelInserted s1 rk apos).list[findFrom s1.list apos rk]? = some (rk, none) ∧
    (∀ i p, i < findFrom s1.list apos rk →
      (sentinelInserted s1 rk apos).list[i]? = some p → p.1 < rk) ∧
    (∀ p ∈ s.list, p ∈ (sentinelInserted s1 rk apos).list) ∧
    (∀ p ∈ (sentinelInserted s1 rk apos).list,
      p ∈ s.list ∨ (p.1 % 2 = 0 ∧ p.2 = none)) := by
  have hpos_le : findFrom s1.list apos rk ≤ s1.list.length :=
    findFrom_le s1.list apos rk hapos
  have hafter : ∀ i p, findFrom s1.list apos rk ≤ i → s1.list[i]? = some p →
      rk < p.1 := by
    intro i p hi hp
    rcases Nat.eq_or_lt_of_le hi with he | hlt
    · rw [← he] at hp
      have h1 := findFrom_ge s1.list apos rk p hp
      have h2 := hnotfound p hp
      omega
    · rcases hnd : s1.list[findFrom s1.list apos rk]? with _ | nd
      · rw [List.getElem?_eq_none_iff] at hnd
        rw [List.getElem?_eq_some_iff] at hp
        obtain ⟨hip, _⟩ := hp
        omega
      · have h1 := findFrom_ge s1.list apos rk nd hnd
        have h2 := hnotfound nd hnd
        have h3 := sorted_getElem?_lt s1.list hInv1.sorted _ i nd p hlt hnd hp
        omega
  have hlist : (sentinelInserted s1 rk apos).list
      = insertAt (findFrom s1.list apos rk) (rk, none) s1.list := rfl
  have hmem2 : ∀ p : Nat × Option V,
      p ∈ insertAt (findFrom s1.list apos rk) (rk, none) s1.list ↔
      p = (rk, none) ∨ p ∈ s1.list := by
    intro p
    rw [(insertAt_perm _ _ _).mem_iff, List.mem_cons]
  have hsorted2 : List.Pairwise (fun a b : Nat × Option V => a.1 < b.1)
      (insertAt (findFrom s1.list apos rk) (rk, none) s1.list) :=
    sorted_insertAt s1.list (rk, none) _ hInv1.sorted hpos_le
      (fun i p hi hp => hbefore i p hi hp) (fun i p hi hp => hafter i p hi hp)
  have hInvPre : MapInv
      { s1 with list := insertAt (findFrom s1.list apos rk) (rk, none) s1.list } := by
    constructor
    · exact hInv1.size_pow
    · exact hsorted2
    · intro p hp
      rcases (hmem2 p).mp hp with h | h
      · rw [h]
        exact hrk_lt
      · exact hInv1.keys_lt p h
    · intro p hp
      rcases (hmem2 p).mp hp with h | h
      · subst h
        exact ⟨fun _ => rfl, fun hodd => by exfalso; omega⟩
      · exact hInv1.parity p h
    · show s1.count = dataCount (insertAt (findFrom s1.list apos rk) (rk, none) s1.list)
      rw [dataCount_insertAt]
      simp only [Option.isSome_none, Bool.false_eq_true, if_false, Nat.zero_add]
      exact hInv1.count_eq
    · intro t nd hnd
      obtain ⟨h1, h2, h3, h4⟩ := hInv1.buckets_ok t nd hnd
      refine ⟨h1, h2, h3, ?_⟩
      rw [mem_keys] at h4 ⊢
      obtain ⟨vo, hvo⟩ := h4
      exact ⟨vo, (hmem2 _).mpr (Or.inr hvo)⟩
  have hkmem : rk ∈ keys (insertAt (findFrom s1.list apos rk) (rk, none) s1.list) := by
    rw [mem_keys]
    exact ⟨none, (hmem2 _).mpr (Or.inl rfl)⟩
  refine ⟨MapInv_publish _ rk (rk, none) hInvPre rfl rfl hrk_even hkmem,
    rfl, rfl, ?_, ?_, ?_, ?_⟩
  · rw [hlist]
    exact getElem?_insertAt_self _ _ _ hpos_le
  · intro i p hi hp
    rw [hlist, getElem?_insertAt_lt _ _ _ _ hi hpos_le] at hp
    exact hbefore i p hi hp
  · intro p hp
    rw [hlist, hmem2]
    exact Or.inr (hold1 p hp)
  · intro p hp
    rw [hlist, hmem2] at hp
    rcases hp with h | h
    · subst h
      exact Or.inr ⟨hrk_even, rfl⟩
    · exact hnew1 p h

set_option maxHeartbeats 2000000 in
theorem lookupBucketF_eq_fast {V : Type} (fuel : Nat) (s : SOL V) (index : Nat)
    (nd : Nat × Option V) (hbk : s.buckets (rev64 index) = some nd) :
    lookupBucketF (fuel + 1) s index = some (s, idxOfKey s.list (rev64 index)) := by
  simp only [lookupBucketF, hbk]

set_option maxHeartbeats 2000000 in
theorem lookupBucketF_eq_none {V : Type} (fuel : Nat) (s s1 : SOL V) (index apos : Nat)
    (hbk : s.buckets (rev64 index) = none)
    (heq : (if bucketParent s.size index = 0 then some (s, 0)
      else lookupBucketF fuel s (bucketParent s.size index)) = some (s1, apos))
    (hnd : s1.list[findFrom s1.list apos (rev64 index)]? = none) :
    lookupBucketF (fuel + 1) s index =
      some (sentinelInserted s1 (rev64 index) apos,
        findFrom s1.list apos (rev64 index)) := by
  simp only [lookupBucketF, hbk, heq, Option.some_bind, hnd]
  rfl

set_option maxHeartbeats 2000000 in
theorem lookupBucketF_eq_found {V : Type} (fuel : Nat) (s s1 : SOL V) (index apos : Nat)
    (nd1 : Nat × Option V) (hbk : s.buckets (rev64 index) = none)
    (heq : (if bucketParent s.size index = 0 then some (s, 0)
      else lookupBucketF fuel s (bucketParent s.size index)) = some (s1, apos))
    (hnd : s1.list[findFrom s1.list apos (rev64 index)]? = some nd1)
    (hfound : nd1.1 = rev64 index) :
    lookupBucketF (fuel + 1) s index =
      some (publish s1 (rev64 index) nd1, findFrom s1.list apos (rev64 index)) := by
  simp only [lookupBucketF, hbk, heq, Option.some_bind, hnd, if_pos hfound]

set_option maxHeartbeats 2000000 in
theorem lookupBucketF_eq_notfound {V : Type} (fuel : Nat) (s s1 : SOL V)
    (index apos : Nat) (nd1 : Nat × Option V) (hbk : s.buckets (rev64 index) = none)
    (heq : (if bucketParent s.size index = 0 then some (s, 0)
      else lookupBucketF fuel s (bucketParent s.size index)) = some (s1, apos))
    (hnd : s1.list[findFrom s1.list apos (rev64 index)]? = some nd1)
    (hfound : ¬ nd1.1 = rev64 index) :
    lookupBucketF (fuel + 1) s index =
      some (sentinelInserted s1 (rev64 index) apos,
        findFrom s1.list apos (rev64 index)) := by
  simp only [lookupBucketF, hbk, heq, Option.some_bind, hnd, if_neg hfound]
  rfl

set_option maxHeartbeats 3200000 in
/-- Sequential specification of `lookup_bucket`: from an invariant state, it
returns a cursor on the bucket's sentinel `(rev64 index, absent)`, preserves
`size` and `count`, keeps the invariant, keeps every node, and only ever adds
sentinel (even-keyed, value-absent) nodes.  All keys before the cursor are
below the sentinel key. -/
theorem lookupBucket_spec {V : Type} : ∀ (fuel : Nat) (s : SOL V) (index : Nat),
    MapInv s → index < s.size → index < fuel →
    ∃ s1 pos, lookupBucketF fuel s index = some (s1, pos) ∧
      MapInv s1 ∧ s1.size = s.size ∧ s1.count = s.count ∧
      s1.list[pos]? = some (rev64 index, none) ∧
      (∀ i p, i < pos → s1.list[i]? = some p → p.1 < rev64 index) ∧
      (∀ p, p ∈ s.list → p ∈ s1.list) ∧
      (∀ p, p ∈ s1.list → p ∈ s.list ∨ (p.1 % 2 = 0 ∧ p.2 = none)) := by
  intro fuel
  induction fuel with
  | zero => intro s index _ _ h; omega
  | succ fuel ih =>
    intro s index hInv hidx hfuel
    obtain ⟨j, hj1, hj62, hsz⟩ := hInv.size_pow
    have hidx63 : index < 2 ^ 63 := by
      have h1 : (2 : Nat) ^ j ≤ 2 ^ 62 := Nat.pow_le_pow_right (by norm_num) hj62
      have h63 : (2 : Nat) ^ 62 < 2 ^ 63 := by norm_num
      omega
    have hrk_even : rev64 index % 2 = 0 := rev64_even_of_lt index hidx63
    have hrk_lt : rev64 index < 2 ^ 64 := rev64_lt index
    rcases hbk : s.buckets (rev64 index) with _ | nd
    -- slow path: the trie slot is still null
    · have hanchor : ∃ s1 apos,
          (if bucketParent s.size index = 0 then some (s, 0)
            else lookupBucketF fuel s (bucketParent s.size index)) = some (s1, apos) ∧
          MapInv s1 ∧ s1.size = s.size ∧ s1.count = s.count ∧
          apos ≤ s1.list.length ∧
          (∀ i p, i < apos → s1.list[i]? = some p → p.1 < rev64 index) ∧
          (∀ p, p ∈ s.list → p ∈ s1.list) ∧
          (∀ p, p ∈ s1.list → p ∈ s.list ∨ (p.1 % 2 = 0 ∧ p.2 = none)) := by
        by_cases hp0 : bucketParent s.size index = 0
        · exact ⟨s, 0, by rw [if_pos hp0], hInv, rfl, rfl, Nat.zero_le _,
            fun i p hi _ => by omega, fun p hp => hp, fun p hp => Or.inl hp⟩
        · have hidx1 : 1 ≤ index := by
            rcases Nat.eq_zero_or_pos index with h0 | h1
            · subst h0
              exact absurd (bucketParent_zero s.size) hp0
            · exact h1
          obtain ⟨hpar_mod, hpow_le, hpow_lt⟩ :=
            bucketParent_spec j index hidx1 (by rw [← hsz]; exact hidx)
          rw [← hsz] at hpar_mod
          have hpar_lt : bucketParent s.size index < index := by
            rw [hpar_mod]
            have h0 := Nat.mod_lt index (show 0 < 2 ^ Nat.log 2 index by positivity)
            omega
          obtain ⟨s1, apos, heq, hInv1, hsz1, hcnt1, hat1, hbef1, hold1, hnew1⟩ :=
            ih s (bucketParent s.size index) hInv (by omega) (by omega)
          have hlog63 : Nat.log 2 index ≤ 63 := by
            by_contra hgt
            have hg1 : 2 ^ 64 ≤ 2 ^ Nat.log 2 index :=
              Nat.pow_le_pow_right (by norm_num) (by omega)
            have hg2 : (2:Nat) ^ 63 < 2 ^ 64 := by norm_num
            omega
          have hbit : index.testBit (Nat.log 2 index) = true := by
            rw [Nat.testBit_to_div_mod]
            have hpow2 : 2 ^ (Nat.log 2 index + 1) = 2 * 2 ^ Nat.log 2 index := by ring
            have hdiv : index / 2 ^ Nat.log 2 index = 1 := by
              apply Nat.div_eq_of_lt_le
              · omega
              · omega
            rw [hdiv]
            rfl
          have hparent_rev : rev64 (bucketParent s.size index) < rev64 index := by
            rw [hpar_mod]
            exact rev64_mod_lt index (Nat.log 2 index) (Nat.log 2 index)
              (Nat.le_refl _) hlog63 hbit
          refine ⟨s1, apos, by rw [if_neg hp0]; exact heq, hInv1, hsz1, hcnt1, ?_, ?_,
            hold1, hnew1⟩
          · have h0 := hat1
            rw [List.getElem?_eq_some_iff] at h0
            obtain ⟨h1, _⟩ := h0
            omega
          · intro i p hi hp
            exact lt_trans (hbef1 i p hi hp) hparent_rev
      obtain ⟨s1, apos, heq, hInv1, hsz1, hcnt1, hapos, hbef, hold1, hnew1⟩ := hanchor
      have hbefore_pos : ∀ i p, i < findFrom s1.list apos (rev64 index) →
          s1.list[i]? = some p → p.1 < rev64 index := by
        intro i p hi hp
        rcases Nat.lt_or_ge i apos with hc | hc
        · exact hbef i p hc hp
        · obtain ⟨q, hq, hqlt⟩ := findFrom_lt s1.list apos (rev64 index) i hc hi
          rw [hp] at hq
          rw [Option.some_inj.mp hq]
          exact hqlt
      rcases hnd : s1.list[findFrom s1.list apos (rev64 index)]? with _ | nd1
      · -- not found, cursor past the last node: link the sentinel at the tail
        obtain ⟨hI, hS, hC, hAt, hBef, hOld, hNew⟩ :=
          insert_branch_spec s s1 (rev64 index) apos hInv1 hrk_even hrk_lt hapos
            hbefore_pos (fun nd0 h => by rw [hnd] at h; cases h) hold1 hnew1
        refine ⟨sentinelInserted s1 (rev64 index) apos,
          findFrom s1.list apos (rev64 index), ?_, hI, by rw [hS, hsz1],
          by rw [hC, hcnt1], hAt, hBef, hOld, hNew⟩
        exact lookupBucketF_eq_none fuel s s1 index apos hbk heq hnd
      · by_cases hfound : nd1.1 = rev64 index
        · -- found: another thread's sentinel is already linked; publish it
          have hnd1mem : nd1 ∈ s1.list := mem_of_getElem? _ _ _ hnd
          have hnd1none : nd1.2 = none := (hInv1.parity nd1 hnd1mem).1 (by omega)
          have hnd1eq : nd1 = (rev64 index, none) := Prod.ext hfound hnd1none
          have hkmem : rev64 index ∈ keys s1.list := by
            rw [mem_keys]
            exact ⟨none, hnd1eq ▸ hnd1mem⟩
          refine ⟨publish s1 (rev64 index) nd1, findFrom s1.list apos (rev64 index),
            ?_, MapInv_publish s1 _ nd1 hInv1 hfound hnd1none hrk_even hkmem,
            by rw [publish_size, hsz1], by rw [publish_count, hcnt1],
            by rw [publish_list, ← hnd1eq]; exact hnd, ?_, ?_, ?_⟩
          · exact lookupBucketF_eq_found fuel s s1 index apos nd1 hbk heq hnd hfound
          · intro i p hi hp
            rw [publish_list] at hp
            exact hbefore_pos i p hi hp
          · intro p hp
            rw [publish_list]
            exact hold1 p hp
          · intro p hp
            rw [publish_list] at hp
            exact hnew1 p hp
        · -- a different key ≥ the sentinel key: link the sentinel before it
          obtain ⟨hI, hS, hC, hAt, hBef, hOld, hNew⟩ :=
            insert_branch_spec s s1 (rev64 index) apos hInv1 hrk_even hrk_lt hapos
              hbefore_pos
              (fun nd0 h => by
                rw [hnd] at h
                exact Option.some_inj.mp h ▸ hfound) hold1 hnew1
          refine ⟨sentinelInserted s1 (rev64 index) apos,
            findFrom s1.list apos (rev64 index), ?_, hI, by rw [hS, hsz1],
            by rw [hC, hcnt1], hAt, hBef, hOld, hNew⟩
          exact lookupBucketF_eq_notfound fuel s s1 index apos nd1 hbk heq hnd hfound
    -- fast path: the published sentinel
    · obtain ⟨hnd1, hnd2, _, hmem⟩ := hInv.buckets_ok (rev64 index) nd hbk
      obtain ⟨vo, hvo⟩ := idxOfKey_spec s.list (rev64 index) hmem
      have hvo_none : vo = none := by
        have hmem2 : (rev64 index, vo) ∈ s.list := mem_of_getElem? _ _ _ hvo
        exact (hInv.parity _ hmem2).1 hrk_even
      refine ⟨s, idxOfKey s.list (rev64 index), ?_, hInv, rfl, rfl, ?_, ?_,
        fun p hp => hp, fun p hp => Or.inl hp⟩
      · exact lookupBucketF_eq_fast fuel s index nd hbk
      · rw [hvo, hvo_none]
      · intro i p hi hp
        exact sorted_getElem?_lt s.list hInv.sorted i _ p (rev64 index, vo) hi hp
          (by rw [hvo])

/-- Sequential specification of `find`: the returned flag is exactly
membership of the data list-key, the cursor rests on the data node when
found, and all keys before the cursor are below the data list-key. -/
theorem findOp_spec {V : Type} (s : SOL V) (key : Nat) (hInv : MapInv s)
    (hk : key < 2 ^ 63) :
    ∃ s1 found pos, findOp s key = some (s1, s.size, found, pos) ∧
      MapInv s1 ∧ s1.size = s.size ∧ s1.count = s.count ∧
      pos ≤ s1.list.length ∧
      (found = true ↔ make_content_key key ∈ keys s.list) ∧
      (found = true → ∃ v : V, s1.list[pos]? = some (make_content_key key, some v)) ∧
      (∀ i p, i < pos → s1.list[i]? = some p → p.1 < make_content_key key) ∧
      (found = false →
        ∀ i p, pos ≤ i → s1.list[i]? = some p → make_content_key key < p.1) ∧
      (∀ p, p ∈ s.list → p ∈ s1.list) ∧
      (∀ p, p ∈ s1.list → p ∈ s.list ∨ (p.1 % 2 = 0 ∧ p.2 = none)) := by
  obtain ⟨j, hj1, hj62, hsz⟩ := hInv.size_pow
  have hszpos : 0 < s.size := by
    rw [hsz]
    positivity
  have hb : key % s.size < s.size := Nat.mod_lt key hszpos
  obtain ⟨s1, bpos, heq, hInv1, hsz1, hcnt1, hat, hbef, hold1, hnew1⟩ :=
    lookupBucket_spec (key % s.size + 1) s (key % s.size) hInv hb (Nat.lt_succ_self _)
  have hck_odd : make_content_key key % 2 = 1 := make_content_key_odd key
  have hsent_lt : rev64 (key % s.size) < make_content_key key := by
    rw [hsz]
    exact sentinel_lt_content key j hk
  have hbpos_len : bpos < s1.list.length := by
    have h0 := hat
    rw [List.getElem?_eq_some_iff] at h0
    exact h0.1
  have hpos_le : findFrom s1.list bpos (make_content_key key) ≤ s1.list.length :=
    findFrom_le s1.list bpos _ (by omega)
  have hbefore_ck : ∀ i p, i < findFrom s1.list bpos (make_content_key key) →
      s1.list[i]? = some p → p.1 < make_content_key key := by
    intro i p hi hp
    rcases Nat.lt_or_ge i bpos with hc | hc
    · exact lt_trans (hbef i p hc hp) hsent_lt
    · rcases Nat.eq_or_lt_of_le hc with he | hlt
      · rw [he] at hat
        rw [hp] at hat
        rw [Option.some_inj.mp hat]
        exact hsent_lt
      · obtain ⟨q, hq, hqlt⟩ := findFrom_lt s1.list bpos (make_content_key key) i hc hi
        rw [hp] at hq
        rw [Option.some_inj.mp hq]
        exact hqlt
  refine ⟨s1, foundAt s1.list (findFrom s1.list bpos (make_content_key key))
      (make_content_key key), findFrom s1.list bpos (make_content_key key),
    ?_, hInv1, hsz1, hcnt1, hpos_le, ?_, ?_, hbefore_ck, ?_, hold1, hnew1⟩
  · simp only [findOp, heq, Option.map_some']
  · constructor
    · intro hf
      unfold foundAt at hf
      rcases hnd : s1.list[findFrom s1.list bpos (make_content_key key)]? with _ | nd
      · rw [hnd] at hf
        cases hf
      · rw [hnd] at hf
        have hkey : nd.1 = make_content_key key := by simpa using hf
        have hmem : nd ∈ s1.list := mem_of_getElem? _ _ _ hnd
        rcases hnew1 nd hmem with h | h
        · rw [mem_keys]
          exact ⟨nd.2, by rw [← hkey]; exact h⟩
        · omega
    · intro hmem
      rw [mem_keys] at hmem
      obtain ⟨vo, hvo⟩ := hmem
      have hvo1 : (make_content_key key, vo) ∈ s1.list := hold1 _ hvo
      obtain ⟨i, hi⟩ := List.mem_iff_getElem?.mp hvo1
      have hge : findFrom s1.list bpos (make_content_key key) ≤ i := by
        by_contra hlt
        have := hbefore_ck i _ (by omega) hi
        simp only at this
        omega
      have hilen : i < s1.list.length := by
        rw [List.getElem?_eq_some_iff] at hi
        exact hi.1
      rcases hnd : s1.list[findFrom s1.list bpos (make_content_key key)]? with _ | nd
      · rw [List.getElem?_eq_none_iff] at hnd
        omega
      · have h1 := findFrom_ge s1.list bpos (make_content_key key) nd hnd
        rcases Nat.eq_or_lt_of_le hge with he | hlt
        · unfold foundAt
          rw [he, hi]
          simp
        · have h2 := sorted_getElem?_lt s1.list hInv1.sorted _ i nd _ hlt hnd hi
          simp only at h2
          omega
  · intro hf
    unfold foundAt at hf
    rcases hnd : s1.list[findFrom s1.list bpos (make_content_key key)]? with _ | nd
    · rw [hnd] at hf
      cases hf
    · rw [hnd] at hf
      have hkey : nd.1 = make_content_key key := by simpa using hf
      have hmem : nd ∈ s1.list := mem_of_getElem? _ _ _ hnd
      have hsome : nd.2.isSome := (hInv1.parity nd hmem).2 (by omega)
      obtain ⟨v, hv⟩ := Option.isSome_iff_exists.mp hsome
      exact ⟨v, congrArg some (Prod.ext hkey hv)⟩
  · intro hf i p hi hp
    rcases Nat.eq_or_lt_of_le hi with he | hlt
    · rw [← he] at hp
      have h1 := findFrom_ge s1.list bpos (make_content_key key) p hp
      unfold foundAt at hf
      rw [hp] at hf
      have h2 : ¬ p.1 = make_content_key key := by simpa using hf
      omega
    · rcases hnd : s1.list[findFrom s1.list bpos (make_content_key key)]? with _ | nd
      · rw [List.getElem?_eq_none_iff] at hnd
        rw [List.getElem?_eq_some_iff] at hp
        obtain ⟨h2, _⟩ := hp
        omega
      · have h1 := findFrom_ge s1.list bpos (make_content_key key) nd hnd
        unfold foundAt at hf
        rw [hnd] at hf
        have h2 : ¬ nd.1 = make_content_key key := by simpa using hf
        have h3 := sorted_getElem?_lt s1.list hInv1.sorted _ i nd p hlt hnd hp
        omega

/-- The state produced by `insert`'s success path: link the data node at the
cursor, `fetch_add` the count, then maybe CAS-double `size`. -/
def insertedState {V : Type} (s1 : SOL V) (sz pos key : Nat) (v : V) : SOL V :=
  let s2 : SOL V := { s1 with list := insertAt pos (make_content_key key, some v) s1.list }
  let pre := s2.count
  let s3 : SOL V := { s2 with count := (pre + 1) % 2 ^ 64 }
  if pre > s3.size * LOAD_FACTOR % 2 ^ 64 then
    if s3.size = sz then { s3 with size := sz * 2 % 2 ^ 64 } else s3
  else s3

set_option maxHeartbeats 1000000 in
theorem insertOp_eq_found {V : Type} (s s1 : SOL V) (key : Nat) (v : V) (sz pos : Nat)
    (heq : findOp s key = some (s1, sz, true, pos)) :
    insertOp s key v = some (s1, .error v) := by
  simp only [insertOp, heq, Option.map_some']
  rfl

set_option maxHeartbeats 1000000 in
theorem insertOp_eq_notfound {V : Type} (s s1 : SOL V) (key : Nat) (v : V) (sz pos : Nat)
    (heq : findOp s key = some (s1, sz, false, pos)) :
    insertOp s key v = some (insertedState s1 sz pos key v, .ok ()) := by
  simp only [insertOp, heq, Option.map_some']
  rfl

theorem insertedState_list {V : Type} (s1 : SOL V) (sz pos key : Nat) (v : V) :
    (insertedState s1 sz pos key v).list
      = insertAt pos (make_content_key key, some v) s1.list := by
  unfold insertedState
  dsimp only
  split
  · split
    · rfl
    · rfl
  · rfl

theorem insertedState_buckets {V : Type} (s1 : SOL V) (sz pos key : Nat) (v : V) :
    (insertedState s1 sz pos key v).buckets = s1.buckets := by
  unfold insertedState
  dsimp only
  split
  · split
    · rfl
    · rfl
  · rfl

theorem insertedState_count {V : Type} (s1 : SOL V) (sz pos key : Nat) (v : V) :
    (insertedState s1 sz pos key v).count = (s1.count + 1) % 2 ^ 64 := by
  unfold insertedState
  dsimp only
  split
  · split
    · rfl
    · rfl
  · rfl

theorem insertedState_size {V : Type} (s1 : SOL V) (sz pos key : Nat) (v : V) :
    (insertedState s1 sz pos key v).size =
      if s1.count > s1.size * LOAD_FACTOR % 2 ^ 64 then
        (if s1.size = sz then sz * 2 % 2 ^ 64 else s1.size)
      else s1.size := by
  unfold insertedState
  dsimp only
  split
  · split
    · rfl
    · rfl
  · rfl

/-- Sequential specification of `insert`: on a present key it returns
`Err` with the caller's value and changes nothing; on an absent key it links
the node, increments `count`, and doubles `size` exactly when the
pre-increment `count` exceeds `size * LOAD_FACTOR`. -/
theorem insertOp_spec {V : Type} (s : SOL V) (key : Nat) (v : V) (hInv : MapInv s)
    (hk : key < 2 ^ 63) :
    ∃ s' r, insertOp s key v = some (s', r) ∧ MapInv s' ∧
      (make_content_key key ∈ keys s.list →
        r = .error v ∧ s'.count = s.count ∧ s'.size = s.size) ∧
      (make_content_key key ∉ keys s.list →
        r = .ok () ∧ s'.count = s.count + 1 ∧
        s'.size = if s.count > s.size * LOAD_FACTOR then 2 * s.size else s.size) := by
  obtain ⟨s1, found, pos, heq, hInv1, hsz1, hcnt1, hpos_le, hiff, hval, hbefore, hafter,
    hold1, hnew1⟩ := findOp_spec s key hInv hk
  obtain ⟨j, hj1, hj62, hsz⟩ := hInv.size_pow
  have hpowj : (2:Nat) ^ j ≤ 2 ^ 62 := Nat.pow_le_pow_right (by norm_num) hj62
  have hsize_le : s.size ≤ 2 ^ 62 := by omega
  have hdc : s.count = dataCount s1.list := by
    rw [← hcnt1]
    exact hInv1.count_eq
  have hodd1 : ∀ p ∈ s1.list, p.2.isSome → p.1 % 2 = 1 := by
    intro p hp hsome
    rcases Nat.mod_two_eq_zero_or_one p.1 with h | h
    · rw [(hInv1.parity p hp).1 h] at hsome
      cases hsome
    · exact h
  have hbound : dataCount s1.list ≤ 2 ^ 63 :=
    dataCount_le s1.list hInv1.sorted hInv1.keys_lt hodd1
  have hck_odd := make_content_key_odd key
  have hck_lt : make_content_key key < 2 ^ 64 := rev64_lt _
  have hmod2 : s.size * LOAD_FACTOR % 2 ^ 64 = s.size * LOAD_FACTOR := by
    apply Nat.mod_eq_of_lt
    unfold LOAD_FACTOR
    have h63 : (2:Nat) ^ 62 * 2 < 2 ^ 64 := by norm_num
    omega
  rcases Bool.eq_false_or_eq_true found with hf | hf
  · -- present key
    rw [hf] at heq hiff
    refine ⟨s1, .error v, insertOp_eq_found s s1 key v s.size pos heq, hInv1, ?_, ?_⟩
    · intro _
      exact ⟨rfl, hcnt1, hsz1⟩
    · intro hnm
      exact absurd (hiff.mp rfl) hnm
  · -- absent key
    rw [hf] at heq hiff
    have hnm : make_content_key key ∉ keys s.list := fun hm =>
      absurd (hiff.mpr hm) Bool.false_ne_true
    have hmem2 : ∀ p : Nat × Option V,
        p ∈ insertAt pos (make_content_key key, some v) s1.list ↔
        p = (make_content_key key, some v) ∨ p ∈ s1.list := fun p => by
      rw [(insertAt_perm _ _ _).mem_iff, List.mem_cons]
    have hsorted2 := sorted_insertAt s1.list (make_content_key key, some v) pos
      hInv1.sorted hpos_le hbefore (hafter hf)
    have hInv2 : MapInv (insertedState s1 s.size pos key v) := by
      constructor
      · rw [insertedState_size, hsz1, hcnt1, hmod2]
        by_cases hdb : s.count > s.size * LOAD_FACTOR
        · rw [if_pos hdb, if_pos rfl]
          have h2 : s.size * 2 % 2 ^ 64 = 2 ^ (j + 1) := by
            rw [hsz, ← pow_succ]
            apply Nat.mod_eq_of_lt
            have hj63 : j + 1 ≤ 63 := by omega
            have := Nat.pow_le_pow_right (show 1 ≤ 2 by norm_num) hj63
            have h64 : (2:Nat) ^ 63 < 2 ^ 64 := by norm_num
            omega
          refine ⟨j + 1, by omega, ?_, h2⟩
          by_contra hgt
          have hj63 : 63 ≤ j + 1 := by omega
          have hge : (2:Nat) ^ 63 ≤ 2 ^ (j + 1) :=
            Nat.pow_le_pow_right (by norm_num) hj63
          unfold LOAD_FACTOR at hdb
          rw [hsz] at hdb
          have hpair : (2:Nat) ^ j * 2 = 2 ^ (j + 1) := by ring
          omega
        · rw [if_neg hdb]
          exact ⟨j, hj1, hj62, hsz⟩
      · rw [show (insertedState s1 s.size pos key v).list
            = insertAt pos (make_content_key key, some v) s1.list from
            insertedState_list s1 s.size pos key v]
        exact hsorted2
      · intro p hp
        rw [insertedState_list] at hp
        rcases (hmem2 p).mp hp with h | h
        · rw [h]
          exact hck_lt
        · exact hInv1.keys_lt p h
      · intro p hp
        rw [insertedState_list] at hp
        rcases (hmem2 p).mp hp with h | h
        · subst h
          exact ⟨fun he => by exfalso; omega, fun _ => rfl⟩
        · exact hInv1.parity p h
      · rw [insertedState_count, insertedState_list, dataCount_insertAt]
        simp only [Option.isSome_some, if_true]
        rw [hcnt1]
        have : (s.count + 1) % 2 ^ 64 = s.count + 1 := by
          apply Nat.mod_eq_of_lt
          have h64 : (2:Nat) ^ 63 < 2 ^ 64 := by norm_num
          omega
        omega
      · intro t nd hnd
        rw [insertedState_buckets] at hnd
        obtain ⟨h1, h2, h3, h4⟩ := hInv1.buckets_ok t nd hnd
        refine ⟨h1, h2, h3, ?_⟩
        rw [insertedState_list]
        rw [mem_keys] at h4 ⊢
        obtain ⟨vo, hvo⟩ := h4
        exact ⟨vo, (hmem2 _).mpr (Or.inr hvo)⟩
    refine ⟨insertedState s1 s.size pos key v, .ok (),
      insertOp_eq_notfound s s1 key v s.size pos heq, hInv2, ?_, ?_⟩
    · intro hm
      exact absurd hm hnm
    · intro _
      refine ⟨rfl, ?_, ?_⟩
      · rw [insertedState_count, hcnt1]
        apply Nat.mod_eq_of_lt
        have h64 : (2:Nat) ^ 63 < 2 ^ 64 := by norm_num
        omega
      · rw [insertedState_size, hsz1, hcnt1, hmod2]
        by_cases hdb : s.count > s.size * LOAD_FACTOR
        · rw [if_pos hdb, if_pos hdb, if_pos rfl]
          have : s.size * 2 % 2 ^ 64 = s.size * 2 := by
            apply Nat.mod_eq_of_lt
            have h63 : (2:Nat) ^ 62 * 2 < 2 ^ 64 := by norm_num
            omega
          omega
        · rw [if_neg hdb, if_neg hdb]

set_option maxHeartbeats 1000000 in
theorem deleteOp_eq_found {V : Type} (s s1 : SOL V) (key sz pos : Nat) (v : V)
    (heq : findOp s key = some (s1, sz, true, pos))
    (hnd : s1.list[pos]? = some (make_content_key key, some v)) :
    deleteOp s key = some ({ s1 with
      list := eraseAt pos s1.list
      count := (s1.count + (2 ^ 64 - 1)) % 2 ^ 64 }, .ok v) := by
  simp only [deleteOp, heq, Option.some_bind, hnd]
  rfl

set_option maxHeartbeats 1000000 in
theorem deleteOp_eq_notfound {V : Type} (s s1 : SOL V) (key sz pos : Nat)
    (heq : findOp s key = some (s1, sz, false, pos)) :
    deleteOp s key = some (s1, .error ()) := by
  simp only [deleteOp, heq, Option.some_bind]
  rfl

set_option maxHeartbeats 1000000 in
theorem lookupOp_eq_found {V : Type} (s s1 : SOL V) (key sz pos : Nat) (v : V)
    (heq : findOp s key = some (s1, sz, true, pos))
    (hnd : s1.list[pos]? = some (make_content_key key, some v)) :
    lookupOp s key = some (s1, some v) := by
  simp only [lookupOp, heq, Option.some_bind, hnd]
  rfl

set_option maxHeartbeats 1000000 in
theorem lookupOp_eq_notfound {V : Type} (s s1 : SOL V) (key sz pos : Nat)
    (heq : findOp s key = some (s1, sz, false, pos)) :
    lookupOp s key = some (s1, none) := by
  simp only [lookupOp, heq, Option.some_bind]
  rfl

/-- Sequential specification of `delete`: `Err` and unchanged `count` on an
absent key; unlink and decrement on a present key. -/
theorem deleteOp_spec {V : Type} (s : SOL V) (key : Nat) (hInv : MapInv s)
    (hk : key < 2 ^ 63) :
    ∃ s' r, deleteOp s key = some (s', r) ∧ MapInv s' ∧ s'.size = s.size ∧
      (make_content_key key ∉ keys s.list → r = .error () ∧ s'.count = s.count) ∧
      (make_content_key key ∈ keys s.list → ∃ v, r = .ok v ∧ s'.count + 1 = s.count) := by
  obtain ⟨s1, found, pos, heq, hInv1, hsz1, hcnt1, hpos_le, hiff, hval, hbefore, hafter,
    hold1, hnew1⟩ := findOp_spec s key hInv hk
  have hdc : s.count = dataCount s1.list := by
    rw [← hcnt1]
    exact hInv1.count_eq
  have hodd1 : ∀ p ∈ s1.list, p.2.isSome → p.1 % 2 = 1 := by
    intro p hp hsome
    rcases Nat.mod_two_eq_zero_or_one p.1 with h | h
    · rw [(hInv1.parity p hp).1 h] at hsome
      cases hsome
    · exact h
  have hbound : dataCount s1.list ≤ 2 ^ 63 :=
    dataCount_le s1.list hInv1.sorted hInv1.keys_lt hodd1
  have hck_odd := make_content_key_odd key
  rcases Bool.eq_false_or_eq_true found with hf | hf
  · -- present key
    rw [hf] at heq hiff hval
    obtain ⟨v, hvpos⟩ := hval rfl
    have hmemnd : (make_content_key key, some v) ∈ s1.list := mem_of_getElem? _ _ _ hvpos
    have hpos_cnt : 1 ≤ dataCount s1.list := dataCount_pos s1.list _ hmemnd rfl
    have herase := dataCount_eraseAt pos s1.list _ hvpos
    simp only [Option.isSome_some, if_true] at herase
    have hmem_er : ∀ p : Nat × Option V, p ∈ s1.list →
        p = (make_content_key key, some v) ∨ p ∈ eraseAt pos s1.list := by
      intro p hp
      have := (eraseAt_perm pos s1.list _ hvpos).mem_iff.mp hp
      rw [List.mem_cons] at this
      exact this
    have hcount_new : (s1.count + (2 ^ 64 - 1)) % 2 ^ 64 = dataCount (eraseAt pos s1.list) := by
      rw [hInv1.count_eq]
      omega
    have hInv2 : MapInv { s1 with
        list := eraseAt pos s1.list
        count := (s1.count + (2 ^ 64 - 1)) % 2 ^ 64 } := by
      constructor
      · exact hInv1.size_pow
      · exact List.Pairwise.sublist (eraseAt_sublist pos s1.list) hInv1.sorted
      · intro p hp
        exact hInv1.keys_lt p ((eraseAt_sublist pos s1.list).mem hp)
      · intro p hp
        exact hInv1.parity p ((eraseAt_sublist pos s1.list).mem hp)
      · exact hcount_new
      · intro t nd hnd
        obtain ⟨h1, h2, h3, h4⟩ := hInv1.buckets_ok t nd hnd
        refine ⟨h1, h2, h3, ?_⟩
        rw [mem_keys] at h4 ⊢
        obtain ⟨vo, hvo⟩ := h4
        rcases hmem_er _ hvo with h | h
        · exfalso
          have : t = make_content_key key := congrArg Prod.fst h
          omega
        · exact ⟨vo, h⟩
    refine ⟨_, .ok v, deleteOp_eq_found s s1 key s.size pos v heq hvpos, hInv2, hsz1, ?_, ?_⟩
    · intro hnm
      exact absurd (hiff.mp rfl) hnm
    · intro _
      refine ⟨v, rfl, ?_⟩
      show (s1.count + (2 ^ 64 - 1)) % 2 ^ 64 + 1 = s.count
      rw [hcount_new]
      omega
  · -- absent key
    rw [hf] at heq hiff
    refine ⟨s1, .error (), deleteOp_eq_notfound s s1 key s.size pos heq, hInv1, hsz1, ?_, ?_⟩
    · intro _
      exact ⟨rfl, hcnt1⟩
    · intro hm
      exact absurd (hiff.mpr hm) Bool.false_ne_true

/-- Sequential specification of `lookup` for state evolution: the state only
gains sentinels; `size` and `count` are unchanged. -/
theorem lookupOp_spec {V : Type} (s : SOL V) (key : Nat) (hInv : MapInv s)
    (hk : key < 2 ^ 63) :
    ∃ s' r, lookupOp s key = some (s', r) ∧ MapInv s' ∧ s'.size = s.size ∧
      s'.count = s.count := by
  obtain ⟨s1, found, pos, heq, hInv1, hsz1, hcnt1, hpos_le, hiff, hval, hbefore, hafter,
    hold1, hnew1⟩ := findOp_spec s key hInv hk
  rcases Bool.eq_false_or_eq_true found with hf | hf
  · rw [hf] at heq hval
    obtain ⟨v, hvpos⟩ := hval rfl
    exact ⟨s1, some v, lookupOp_eq_found s s1 key s.size pos v heq hvpos, hInv1, hsz1, hcnt1⟩
  · rw [hf] at heq
    exact ⟨s1, none, lookupOp_eq_notfound s s1 key s.size pos heq, hInv1, hsz1, hcnt1⟩

theorem MapInv_new (V : Type) : MapInv (SOL.new V) := by
  constructor
  · exact ⟨1, Nat.le_refl 1, by omega, rfl⟩
  · exact List.Pairwise.nil
  · intro p hp
    cases hp
  · intro p hp
    cases hp
  · rfl
  · intro t nd h
    cases h

/-- Each public operation preserves the invariant and never shrinks `size`. -/
theorem MapInv_stepOp {V : Type} (s : SOL V) (op : MapOp V) (hInv : MapInv s) :
    MapInv (stepOp s op) ∧ s.size ≤ (stepOp s op).size := by
  cases op with
  | ins k v =>
    simp only [stepOp]
    by_cases hk : k < 2 ^ 63
    · rw [if_pos hk]
      obtain ⟨s', r, heq, hInv', hpres, habs⟩ := insertOp_spec s k v hInv hk
      rw [heq]
      refine ⟨hInv', ?_⟩
      by_cases hm : make_content_key k ∈ keys s.list
      · rw [(hpres hm).2.2]
      · rw [(habs hm).2.2]
        split
        · omega
        · omega
    · rw [if_neg hk]
      exact ⟨hInv, Nat.le_refl _⟩
  | del k =>
    simp only [stepOp]
    by_cases hk : k < 2 ^ 63
    · rw [if_pos hk]
      obtain ⟨s', r, heq, hInv', hsz, _, _⟩ := deleteOp_spec s k hInv hk
      rw [heq]
      exact ⟨hInv', by rw [hsz]⟩
    · rw [if_neg hk]
      exact ⟨hInv, Nat.le_refl _⟩
  | look k =>
    simp only [stepOp]
    by_cases hk : k < 2 ^ 63
    · rw [if_pos hk]
      obtain ⟨s', r, heq, hInv', hsz, _⟩ := lookupOp_spec s k hInv hk
      rw [heq]
      exact ⟨hInv', by rw [hsz]⟩
    · rw [if_neg hk]
      exact ⟨hInv, Nat.le_refl _⟩

theorem MapInv_foldl {V : Type} : ∀ (ops : List (MapOp V)) (s : SOL V),
    MapInv s → MapInv (ops.foldl stepOp s)
  | [], _, h => h
  | op :: ops, s, h => MapInv_foldl ops (stepOp s op) (MapInv_stepOp s op h).1

/-- Every reachable map state satisfies the invariant. -/
theorem MapInv_runOps {V : Type} (ops : List (MapOp V)) : MapInv (runOps ops) :=
  MapInv_foldl ops (SOL.new V) (MapInv_new V)

theorem runOps_append {V : Type} (ops : List (MapOp V)) (op : MapOp V) :
    runOps (ops ++ [op]) = stepOp (runOps ops) op := by
  unfold runOps
  rw [List.foldl_append]
  rfl

/-- C2: in every reachable map state, inserting a key that is already present
returns `Err` carrying exactly the value that was passed in and leaves
`count` unchanged, and deleting an absent key returns `Err` and leaves
`count` unchanged.  Presence of user key `k` is membership of its data
list-key `make_content_key k` in the list. -/
theorem insert_present_delete_absent {V : Type} (ops : List (MapOp V)) (key : Nat)
    (v : V) (hk : key < 2 ^ 63) :
    (make_content_key key ∈ keys (runOps ops).list →
      ∃ s', insertOp (runOps ops) key v = some (s', .error v) ∧
        s'.count = (runOps ops).count) ∧
    (make_content_key key ∉ keys (runOps ops).list →
      ∃ s', deleteOp (runOps ops) key = some (s', .error ()) ∧
        s'.count = (runOps ops).count) := by
  have hInv := MapInv_runOps ops
  constructor
  · intro hm
    obtain ⟨s', r, heq, _, hpres, _⟩ := insertOp_spec (runOps ops) key v hInv hk
    obtain ⟨hr, hc, _⟩ := hpres hm
    exact ⟨s', by rw [← hr]; exact heq, hc⟩
  · intro hm
    obtain ⟨s', r, heq, _, _, habs, _⟩ := deleteOp_spec (runOps ops) key hInv hk
    obtain ⟨hr, hc⟩ := habs hm
    exact ⟨s', by rw [← hr]; exact heq, hc⟩

/-- Witness for C2: on the map `{5 ↦ 37}`, a second insert of key 5 is
rejected with its value and `count` stays 1; on the fresh map, deleting key 5
fails and `count` stays 0. -/
theorem insert_present_delete_absent_witness :
    (∃ s', insertOp (runOps [MapOp.ins 5 (37 : Nat)]) 5 99 = some (s', .error 99) ∧
      s'.count = (runOps [MapOp.ins 5 (37 : Nat)]).count) ∧
    (∃ s', deleteOp (runOps ([] : List (MapOp Nat))) 5 = some (s', .error ()) ∧
      s'.count = (runOps ([] : List (MapOp Nat))).count) :=
  ⟨(insert_present_delete_absent [MapOp.ins 5 37] 5 99 (by norm_num)).1 (by decide),
   (insert_present_delete_absent [] 5 0 (by norm_num)).2 (by decide)⟩

/-- C3: in every reachable state `size` is a power of two (`2` initially) and
never decreases across an operation; a successful insert doubles `size`
exactly when the pre-increment `count` exceeds `size * LOAD_FACTOR`
(`LOAD_FACTOR = 2`), and otherwise — including every unsuccessful insert —
leaves `size` unchanged. -/
theorem size_power_of_two_doubling {V : Type} (ops : List (MapOp V)) :
    (∃ j, 1 ≤ j ∧ (runOps ops).size = 2 ^ j) ∧
    (runOps ([] : List (MapOp V))).size = 2 ∧
    (∀ op, (runOps ops).size ≤ (runOps (ops ++ [op])).size) ∧
    (∀ key v s' r, key < 2 ^ 63 → insertOp (runOps ops) key v = some (s', r) →
      (r = .ok () → s'.size =
        if (runOps ops).count > (runOps ops).size * LOAD_FACTOR
        then 2 * (runOps ops).size else (runOps ops).size) ∧
      (r ≠ .ok () → s'.size = (runOps ops).size)) := by
  have hInv := MapInv_runOps ops
  refine ⟨?_, rfl, ?_, ?_⟩
  · obtain ⟨j, hj1, _, hsz⟩ := hInv.size_pow
    exact ⟨j, hj1, hsz⟩
  · intro op
    rw [runOps_append]
    exact (MapInv_stepOp (runOps ops) op hInv).2
  · intro key v s' r hk heq
    obtain ⟨s'', r'', heq'', _, hpres, habs⟩ := insertOp_spec (runOps ops) key v hInv hk
    rw [heq] at heq''
    have hs : s' = s'' := congrArg Prod.fst (Option.some_inj.mp heq'')
    have hr : r = r'' := congrArg Prod.snd (Option.some_inj.mp heq'')
    subst hs
    subst hr
    by_cases hm : make_content_key key ∈ keys (runOps ops).list
    · obtain ⟨hre, _, hsz⟩ := hpres hm
      constructor
      · intro hok
        rw [hre] at hok
        cases hok
      · intro _
        exact hsz
    · obtain ⟨hre, _, hsz⟩ := habs hm
      constructor
      · intro _
        exact hsz
      · intro hne
        exact absurd hre hne

/-- Witness for C3's insert clause: inserting key 3 into the fresh map leaves
`size` at the value the doubling rule dictates. -/
theorem size_power_of_two_doubling_witness :
    (runOps [MapOp.ins 3 (0 : Nat)]).size =
      if (runOps ([] : List (MapOp Nat))).count >
          (runOps ([] : List (MapOp Nat))).size * LOAD_FACTOR
      then 2 * (runOps ([] : List (MapOp Nat))).size
      else (runOps ([] : List (MapOp Nat))).size :=
  ((size_power_of_two_doubling ([] : List (MapOp Nat))).2.2.2 3 0
    (runOps [MapOp.ins 3 0]) (.ok ()) (by norm_num) rfl).1 rfl

/-- C7: in every reachable state, a non-null trie slot at index `rev64 b`
holds exactly bucket `b`'s sentinel: its list-key is `rev64 b` and its value
is absent. -/
theorem bucket_slot_is_sentinel {V : Type} (ops : List (MapOp V)) (b : Nat)
    (nd : Nat × Option V) (h : (runOps ops).buckets (rev64 b) = some nd) :
    nd.1 = rev64 b ∧ nd.2 = none := by
  obtain ⟨h1, h2, _, _⟩ := (MapInv_runOps ops).buckets_ok (rev64 b) nd h
  exact ⟨h1, h2⟩

/-- Witness for C7: after inserting key 5, bucket 1's slot holds the sentinel
with list-key `rev64 1 = 2 ^ 63` and no value. -/
theorem bucket_slot_is_sentinel_witness :
    ((2 ^ 63 : Nat), (none : Option Nat)).1 = rev64 1 ∧
    ((2 ^ 63 : Nat), (none : Option Nat)).2 = none :=
  bucket_slot_is_sentinel [MapOp.ins 5 (37 : Nat)] 1 (2 ^ 63, none) rfl

/-- C4 counterexample: for bucket `b = 1` (with `0 < b < size = 2`) the
computed parent is 0, so `lookup_bucket` anchors at the list head, not at
bucket 0's cursor — the head is not used only for `b = 0`.  Concretely, after
`insert(5)` (which materializes bucket 1) bucket 0's trie slot was never
touched. -/
theorem lookup_bucket_head_not_only_zero :
    (0 : Nat) < 1 ∧ (1 : Nat) < 2 ∧ usesHead 2 1 = true ∧
    (runOps [MapOp.ins 5 (37 : Nat)]).buckets (rev64 1) = some (2 ^ 63, none) ∧
    (runOps [MapOp.ins 5 (37 : Nat)]).buckets (rev64 0) = none :=
  ⟨by norm_num, by norm_num, by decide, rfl, rfl⟩

/-- C4 (amended): for `0 < b < size` (size a power of two), the parent bucket
is `b` minus the highest power of two not exceeding `b`; the recursion
anchors at the parent bucket's cursor unless the computed parent is 0, which
happens exactly when `b` is itself a power of two (and for `b = 0`), in which
case the list head is the anchor. -/
theorem bucketParent_clears_msb (size b : Nat) (hs : ∃ j, size = 2 ^ j)
    (hb : 0 < b) (hbs : b < size) :
    bucketParent size b = b - 2 ^ Nat.log 2 b ∧
    2 ^ Nat.log 2 b ≤ b ∧ b < 2 ^ (Nat.log 2 b + 1) ∧
    (usesHead size b = true ↔ b = 2 ^ Nat.log 2 b) := by
  obtain ⟨j, rfl⟩ := hs
  obtain ⟨hmod, hle, hlt⟩ := bucketParent_spec j b hb hbs
  have hpow : 2 ^ (Nat.log 2 b + 1) = 2 * 2 ^ Nat.log 2 b := by ring
  have hsub : b % 2 ^ Nat.log 2 b = b - 2 ^ Nat.log 2 b := by
    rw [Nat.mod_eq_sub_mod hle, Nat.mod_eq_of_lt (by omega)]
  refine ⟨by rw [hmod, hsub], hle, hlt, ?_⟩
  unfold usesHead
  rw [hmod, hsub]
  constructor
  · intro h
    have h0 : b - 2 ^ Nat.log 2 b = 0 := by
      have := of_decide_eq_true h
      omega
    omega
  · intro h
    have h0 : b - 2 ^ Nat.log 2 b = 0 := by omega
    rw [h0]
    rfl

/-- Witness for C4 (amended), at `size = 4`, `b = 3`: the parent bucket is
`3 - 2 = 1` and the head is not used. -/
theorem bucketParent_clears_msb_witness :
    bucketParent 4 3 = 3 - 2 ^ Nat.log 2 3 ∧
    2 ^ Nat.log 2 3 ≤ 3 ∧ 3 < 2 ^ (Nat.log 2 3 + 1) ∧
    (usesHead 4 3 = true ↔ 3 = 2 ^ Nat.log 2 3) :=
  bucketParent_clears_msb 4 3 ⟨2, rfl⟩ (by norm_num) (by norm_num)
